import Mathlib

/-!
Verification of the LibreDomains DNS reconciliation engine.

This file gives a shallow embedding of the reconciliation logic of
`.github/scripts/cloudflare_manager.py` (the desired-state compiler in
`main`, the inline matching loop of `main`, the `record_matches` helper,
the stale-record deletion and the removed-subdomain cleanup) and of
`scripts/cloudflare/cloudflare_manager.py`'s `sync_domain_records`
executor, together with theorems settling the spec claims about them.
-/

/-! ## String helpers mirroring the Python string operations used -/

/-- Python `s.rstrip('.')`: drop all trailing `'.'` characters. -/
def rstripDots (s : String) : String :=
  String.mk ((s.data.reverse.dropWhile (fun c => c == '.')).reverse)

/-- Python `s.endswith(suffix)`. -/
def endswith (s suffix : String) : Bool :=
  decide (suffix.data <:+ s.data)

/-- Python `s.startswith(prefix)`. -/
def startswith (s p : String) : Bool :=
  decide (p.data <+: s.data)

/-! ## Record model

A desired record is the `cf_api_record` dict built in step 1 of `main`
(lines 233-252): keys `type`, `name`, `content`, `ttl`, optionally
`priority` (MX only) and `proxied` (A/AAAA/CNAME only).  A live record is
a Cloudflare DNS record as returned by the API: additionally it has an
`id`; `priority`/`proxied` may be absent (`dict.get`).  Provider ids are
modelled as naturals. -/

structure DesiredRecord where
  rtype : String
  name : String
  content : String
  ttl : Nat
  priority : Option Nat
  proxied : Option Bool
deriving Repr, DecidableEq

structure LiveRecord where
  id : Nat
  rtype : String
  name : String
  content : String
  ttl : Nat
  priority : Option Nat
  proxied : Option Bool
deriving Repr, DecidableEq

/-- `proxied` read with Python's `dict.get("proxied", False)`. -/
def proxiedDefault (o : Option Bool) : Bool := o.getD false

/-- The inline content comparison of `main` (lines 300-308): type must be
equal, then CNAME compares with trailing dots stripped, MX compares the
content literally plus `priority` equality, and every other type compares
`content` literally. -/
def contentMatches (cf : LiveRecord) (d : DesiredRecord) : Bool :=
  cf.rtype == d.rtype &&
    ((cf.rtype == "CNAME" && rstripDots cf.content == rstripDots d.content) ||
     (cf.rtype == "MX" && cf.content == d.content && cf.priority == d.priority) ||
     (cf.rtype != "CNAME" && cf.rtype != "MX" && cf.content == d.content))

/-- The proxied comparison of `main` (lines 311-314): only for desired
type A/AAAA/CNAME, comparing `get("proxied", False)` on both sides. -/
def proxyMatches (cf : LiveRecord) (d : DesiredRecord) : Bool :=
  if d.rtype == "A" || d.rtype == "AAAA" || d.rtype == "CNAME" then
    proxiedDefault cf.proxied == proxiedDefault d.proxied
  else
    true

/-! ## The `record_matches` helper (lines 153-174)

It takes the raw request-file record entry (key `value` instead of
`content`), checks the record name against the full domain name, and
guards the proxied comparison on the `proxied` key being present in the
desired entry. -/

structure RawRecord where
  rtype : String
  value : String
  ttl : Option Nat
  priority : Option Nat
  proxied : Option Bool
deriving Repr, DecidableEq

def record_matches (cf : LiveRecord) (dr : RawRecord) (full : String) : Bool :=
  if cf.rtype != dr.rtype then false
  else if cf.name != full then false
  else if cf.rtype == "CNAME" && rstripDots cf.content != rstripDots dr.value then false
  else if cf.rtype == "MX" && (cf.content != dr.value || cf.priority != dr.priority) then false
  else if cf.rtype == "TXT" && cf.content != dr.value then false
  else if cf.rtype != "CNAME" && cf.rtype != "MX" && cf.rtype != "TXT" && cf.content != dr.value then false
  else if dr.proxied.isSome && (dr.rtype == "A" || dr.rtype == "AAAA" || dr.rtype == "CNAME") then
    proxiedDefault cf.proxied == proxiedDefault dr.proxied
  else true

/-! ## The per-subdomain reconciliation loop of `main` (lines 288-345)

For one `full_domain_name`, `main` walks the desired records in document
order; for each it scans the zone's live records at that name, skipping
ids already in `processed_cf_ids`, and takes the first content match.  A
content match with equal proxied status is left alone (unchanged); a
content match with differing proxied status is updated in place (the live
record's id is reused); no content match means a create.  Live records at
that name never claimed are deleted afterwards.  `Plan` is that
classification, computed assuming every provider call succeeds. -/

structure Plan where
  unchanged : List LiveRecord
  updates : List (LiveRecord × DesiredRecord)
  creates : List DesiredRecord
  deletes : List LiveRecord
deriving Repr, DecidableEq

/-- The inner `for cf_rec in current_cf_records_for_subdomain` scan:
first live record not yet processed whose content matches. -/
def findContentMatch (live : List LiveRecord) (processed : List Nat)
    (d : DesiredRecord) : Option LiveRecord :=
  live.find? (fun cf => !processed.contains cf.id && contentMatches cf d)

def planLoop (ds : List DesiredRecord) (live : List LiveRecord)
    (processed : List Nat) : Plan :=
  match ds with
  | [] => ⟨[], [], [], live.filter (fun cf => !processed.contains cf.id)⟩
  | d :: rest =>
    match findContentMatch live processed d with
    | some cf =>
      if proxyMatches cf d then
        let p := planLoop rest live (cf.id :: processed)
        ⟨cf :: p.unchanged, p.updates, p.creates, p.deletes⟩
      else
        let p := planLoop rest live (cf.id :: processed)
        ⟨p.unchanged, (cf, d) :: p.updates, p.creates, p.deletes⟩
    | none =>
      let p := planLoop rest live processed
      ⟨p.unchanged, p.updates, d :: p.creates, p.deletes⟩

/-! ## Applying a plan (all provider calls succeeding)

`update_dns_record` PUTs the full desired payload at the live record's
id; `create_dns_record` POSTs the desired payload and the provider
assigns a fresh id; deletes remove.  `applyPlan` is the zone state after
a fully successful application, with fresh ids `base, base+1, …`. -/

def toLive (d : DesiredRecord) (i : Nat) : LiveRecord :=
  ⟨i, d.rtype, d.name, d.content, d.ttl, d.priority, d.proxied⟩

def updMap (p : Plan) (cf : LiveRecord) : Option LiveRecord :=
  if p.unchanged.any (fun u => u.id == cf.id) then some cf
  else
    match p.updates.find? (fun ud => ud.1.id == cf.id) with
    | some ud => some (toLive ud.2 cf.id)
    | none => none

def withFresh (ds : List DesiredRecord) (base : Nat) : List LiveRecord :=
  match ds with
  | [] => []
  | d :: rest => toLive d base :: withFresh rest (base + 1)

def applyPlan (live : List LiveRecord) (p : Plan) (base : Nat) : List LiveRecord :=
  live.filterMap (updMap p) ++ withFresh p.creates base

/-! ## Canonical content keys

`contentMatches` is an equality test in disguise: it compares a
type-dependent canonical key of the two records.  This is the engine
behind the idempotence proof. -/

def ckey (rtype content : String) (priority : Option Nat) :
    String × String × Option Nat :=
  (rtype,
   if rtype == "CNAME" then rstripDots content else content,
   if rtype == "MX" then priority else none)

def ckeyL (cf : LiveRecord) : String × String × Option Nat :=
  ckey cf.rtype cf.content cf.priority

def ckeyD (d : DesiredRecord) : String × String × Option Nat :=
  ckey d.rtype d.content d.priority

theorem contentMatches_eq_true_iff (cf : LiveRecord) (d : DesiredRecord) :
    contentMatches cf d = true ↔ ckeyL cf = ckeyD d := by
  unfold contentMatches ckeyL ckeyD ckey
  by_cases h1 : cf.rtype = d.rtype
  · rw [h1]
    by_cases hC : d.rtype = "CNAME"
    · simp [hC]
    · by_cases hM : d.rtype = "MX"
      · simp [hC, hM]
      · simp [hC, hM]
  · constructor
    · intro h
      exfalso
      simp only [Bool.and_eq_true, beq_iff_eq] at h
      exact h1 h.1
    · intro h
      exfalso
      exact h1 (congrArg Prod.fst h)

theorem contentMatches_congr {x y : LiveRecord} (h : ckeyL x = ckeyL y)
    (d : DesiredRecord) : contentMatches x d = contentMatches y d := by
  have hx := contentMatches_eq_true_iff x d
  have hy := contentMatches_eq_true_iff y d
  rw [h] at hx
  cases hcy : contentMatches y d
  · cases hcx : contentMatches x d
    · rfl
    · exact absurd (hy.mpr (hx.mp hcx)) (by simp [hcy])
  · exact hx.mpr (hy.mp hcy)

theorem ckeyL_toLive (d : DesiredRecord) (i : Nat) :
    ckeyL (toLive d i) = ckeyD d := rfl

theorem contentMatches_toLive (d : DesiredRecord) (i : Nat) :
    contentMatches (toLive d i) d = true :=
  (contentMatches_eq_true_iff _ _).mpr rfl

theorem proxyMatches_toLive (d : DesiredRecord) (i : Nat) :
    proxyMatches (toLive d i) d = true := by
  unfold proxyMatches toLive
  split <;> simp

/-! ## Generic list helpers -/

theorem find?_filter_bool {α : Type} (l : List α) (q p : α → Bool) :
    (l.filter q).find? p = l.find? (fun a => q a && p a) := by
  induction l with
  | nil => rfl
  | cons a t ih =>
    by_cases hq : q a
    · by_cases hp : p a
      · simp [List.filter_cons, hq, List.find?_cons, hp]
      · simp [List.filter_cons, hq, List.find?_cons, hp, ih]
    · simp [List.filter_cons, hq, List.find?_cons, ih,
        Bool.eq_false_iff.mpr hq]

theorem find?_eq_some_split {α : Type} {p : α → Bool} {l : List α} {a : α}
    (h : l.find? p = some a) :
    ∃ l1 l2, l = l1 ++ a :: l2 ∧ ∀ x ∈ l1, p x = false := by
  induction l with
  | nil => simp [List.find?] at h
  | cons b t ih =>
    by_cases hb : p b
    · rw [List.find?] at h
      rw [hb] at h
      obtain rfl : b = a := by injection h
      exact ⟨[], t, rfl, by intro x hx; cases hx⟩
    · rw [List.find?] at h
      rw [Bool.eq_false_iff.mpr hb] at h
      obtain ⟨l1, l2, rfl, hall⟩ := ih h
      refine ⟨b :: l1, l2, rfl, ?_⟩
      intro x hx
      rcases List.mem_cons.mp hx with rfl | hx
      · exact Bool.eq_false_iff.mpr hb
      · exact hall x hx

theorem filterMap_const_none {α β : Type} (l : List α) :
    l.filterMap (fun _ => (none : Option β)) = [] := by
  induction l with
  | nil => rfl
  | cons a t ih => simp [List.filterMap_cons, ih]

/-! ## Equation lemmas for `planLoop` -/

theorem planLoop_nil (live : List LiveRecord) (processed : List Nat) :
    planLoop [] live processed
      = ⟨[], [], [], live.filter (fun cf => !processed.contains cf.id)⟩ := rfl

theorem planLoop_cons_proxy {live : List LiveRecord} {processed : List Nat}
    {d : DesiredRecord} {cf : LiveRecord} (rest : List DesiredRecord)
    (hf : findContentMatch live processed d = some cf)
    (hp : proxyMatches cf d = true) :
    planLoop (d :: rest) live processed =
      ⟨cf :: (planLoop rest live (cf.id :: processed)).unchanged,
       (planLoop rest live (cf.id :: processed)).updates,
       (planLoop rest live (cf.id :: processed)).creates,
       (planLoop rest live (cf.id :: processed)).deletes⟩ := by
  simp only [planLoop]
  rw [hf]
  simp [hp]

theorem planLoop_cons_noproxy {live : List LiveRecord} {processed : List Nat}
    {d : DesiredRecord} {cf : LiveRecord} (rest : List DesiredRecord)
    (hf : findContentMatch live processed d = some cf)
    (hp : proxyMatches cf d = false) :
    planLoop (d :: rest) live processed =
      ⟨(planLoop rest live (cf.id :: processed)).unchanged,
       (cf, d) :: (planLoop rest live (cf.id :: processed)).updates,
       (planLoop rest live (cf.id :: processed)).creates,
       (planLoop rest live (cf.id :: processed)).deletes⟩ := by
  simp only [planLoop]
  rw [hf]
  simp [hp]

theorem planLoop_cons_none {live : List LiveRecord} {processed : List Nat}
    {d : DesiredRecord} (rest : List DesiredRecord)
    (hf : findContentMatch live processed d = none) :
    planLoop (d :: rest) live processed =
      ⟨(planLoop rest live processed).unchanged,
       (planLoop rest live processed).updates,
       d :: (planLoop rest live processed).creates,
       (planLoop rest live processed).deletes⟩ := by
  simp only [planLoop]
  rw [hf]

/-! ## Facts about the records a plan claims -/

theorem contains_tail_eq_false {a x : Nat} {l : List Nat}
    (h : (a :: l).contains x = false) : l.contains x = false := by
  rw [List.contains_cons] at h
  exact (Bool.or_eq_false_iff.mp h).2

theorem findContentMatch_spec {live : List LiveRecord} {processed : List Nat}
    {d : DesiredRecord} {cf : LiveRecord}
    (hf : findContentMatch live processed d = some cf) :
    cf ∈ live ∧ processed.contains cf.id = false ∧ contentMatches cf d = true := by
  refine ⟨List.mem_of_find?_eq_some hf, ?_, ?_⟩
  · have h := List.find?_some hf
    rw [Bool.and_eq_true] at h
    have := h.1
    rwa [Bool.not_eq_true'] at this
  · have h := List.find?_some hf
    rw [Bool.and_eq_true] at h
    exact h.2

theorem planLoop_unchanged_spec (ds : List DesiredRecord) :
    ∀ (live : List LiveRecord) (processed : List Nat),
    ∀ u ∈ (planLoop ds live processed).unchanged,
      u ∈ live ∧ processed.contains u.id = false := by
  induction ds with
  | nil =>
    intro live processed u hu
    rw [planLoop_nil] at hu
    cases hu
  | cons d rest ih =>
    intro live processed u hu
    cases hf : findContentMatch live processed d with
    | none =>
      rw [planLoop_cons_none rest hf] at hu
      exact ih live processed u hu
    | some cf =>
      obtain ⟨hcf, hnp, _⟩ := findContentMatch_spec hf
      cases hp : proxyMatches cf d with
      | true =>
        rw [planLoop_cons_proxy rest hf hp] at hu
        rcases List.mem_cons.mp hu with rfl | hu
        · exact ⟨hcf, hnp⟩
        · obtain ⟨h1, h2⟩ := ih live (cf.id :: processed) u hu
          exact ⟨h1, contains_tail_eq_false h2⟩
      | false =>
        rw [planLoop_cons_noproxy rest hf hp] at hu
        obtain ⟨h1, h2⟩ := ih live (cf.id :: processed) u hu
        exact ⟨h1, contains_tail_eq_false h2⟩

theorem planLoop_updates_spec (ds : List DesiredRecord) :
    ∀ (live : List LiveRecord) (processed : List Nat),
    ∀ ud ∈ (planLoop ds live processed).updates,
      ud.1 ∈ live ∧ processed.contains ud.1.id = false
        ∧ contentMatches ud.1 ud.2 = true := by
  induction ds with
  | nil =>
    intro live processed ud hud
    rw [planLoop_nil] at hud
    cases hud
  | cons d rest ih =>
    intro live processed ud hud
    cases hf : findContentMatch live processed d with
    | none =>
      rw [planLoop_cons_none rest hf] at hud
      exact ih live processed ud hud
    | some cf =>
      obtain ⟨hcf, hnp, hcm⟩ := findContentMatch_spec hf
      cases hp : proxyMatches cf d with
      | true =>
        rw [planLoop_cons_proxy rest hf hp] at hud
        obtain ⟨h1, h2, h3⟩ := ih live (cf.id :: processed) ud hud
        exact ⟨h1, contains_tail_eq_false h2, h3⟩
      | false =>
        rw [planLoop_cons_noproxy rest hf hp] at hud
        rcases List.mem_cons.mp hud with rfl | hud
        · exact ⟨hcf, hnp, hcm⟩
        · obtain ⟨h1, h2, h3⟩ := ih live (cf.id :: processed) ud hud
          exact ⟨h1, contains_tail_eq_false h2, h3⟩

/-! ## Normalising the processed-set away

Skipping live records whose id is in `processed_cf_ids` is the same as
running on the live list with those records filtered out. -/

theorem planLoop_filter (ds : List DesiredRecord) :
    ∀ (live : List LiveRecord) (processed : List Nat),
      planLoop ds live processed
        = planLoop ds (live.filter (fun cf => !processed.contains cf.id)) [] := by
  induction ds with
  | nil =>
    intro live processed
    rw [planLoop_nil, planLoop_nil]
    have h : ∀ (l : List LiveRecord),
        l.filter (fun cf => !([] : List Nat).contains cf.id) = l := by
      intro l
      exact List.filter_eq_self.mpr (fun a _ => rfl)
    rw [h]
  | cons d rest ih =>
    intro live processed
    have hpred : findContentMatch
        (live.filter (fun cf => !processed.contains cf.id)) [] d
        = findContentMatch live processed d := by
      unfold findContentMatch
      rw [find?_filter_bool]
      congr 1
    cases hf : findContentMatch live processed d with
    | none =>
      rw [planLoop_cons_none rest hf, planLoop_cons_none rest (hpred.trans hf)]
      rw [ih live processed]
    | some cf =>
      have hf2 := hpred.trans hf
      have hlist : (live.filter (fun x => !processed.contains x.id)).filter
            (fun x => !([cf.id] : List Nat).contains x.id)
          = live.filter (fun x => !((cf.id :: processed) : List Nat).contains x.id) := by
        rw [List.filter_filter]
        apply List.filter_congr
        intro x _
        simp [List.contains_cons, Bool.and_comm]
      cases hp : proxyMatches cf d with
      | true =>
        rw [planLoop_cons_proxy rest hf hp, planLoop_cons_proxy rest hf2 hp]
        rw [ih live (cf.id :: processed), ih (live.filter _) [cf.id], hlist]
      | false =>
        rw [planLoop_cons_noproxy rest hf hp, planLoop_cons_noproxy rest hf2 hp]
        rw [ih live (cf.id :: processed), ih (live.filter _) [cf.id], hlist]

/-! ## Facts about `updMap` and `withFresh` -/

theorem updMap_some_id {p : Plan} {cf y : LiveRecord}
    (h : updMap p cf = some y) : y.id = cf.id := by
  unfold updMap at h
  by_cases hc : (p.unchanged.any (fun u => u.id == cf.id)) = true
  · rw [if_pos hc] at h
    injection h with h
    rw [← h]
  · rw [if_neg hc] at h
    cases hm : p.updates.find? (fun ud => ud.1.id == cf.id) with
    | none => rw [hm] at h; cases h
    | some ud => rw [hm] at h; injection h with h; rw [← h]; rfl

theorem updMap_planLoop_ckey {ds : List DesiredRecord} {live : List LiveRecord}
    {processed : List Nat} (hnd : (live.map LiveRecord.id).Nodup)
    {l y : LiveRecord} (hl : l ∈ live)
    (h : updMap (planLoop ds live processed) l = some y) :
    ckeyL y = ckeyL l := by
  unfold updMap at h
  by_cases hc : ((planLoop ds live processed).unchanged.any (fun u => u.id == l.id)) = true
  · rw [if_pos hc] at h
    injection h with h
    rw [← h]
  · rw [if_neg hc] at h
    cases hm : (planLoop ds live processed).updates.find? (fun ud => ud.1.id == l.id) with
    | none => rw [hm] at h; cases h
    | some ud =>
      rw [hm] at h
      injection h with h
      have hud := List.mem_of_find?_eq_some hm
      have hpred := List.find?_some hm
      have hid : ud.1.id = l.id := by rwa [beq_iff_eq] at hpred
      obtain ⟨hmem, _, hcm⟩ := planLoop_updates_spec ds live processed ud hud
      have heq : ud.1 = l := List.inj_on_of_nodup_map hnd hmem hl hid
      rw [← h, ckeyL_toLive, ← heq]
      exact ((contentMatches_eq_true_iff ud.1 ud.2).mp hcm).symm

theorem withFresh_id_ge (ds : List DesiredRecord) :
    ∀ (b : Nat) (x : LiveRecord), x ∈ withFresh ds b → b ≤ x.id := by
  induction ds with
  | nil => intro b x hx; cases hx
  | cons d rest ih =>
    intro b x hx
    rcases List.mem_cons.mp hx with rfl | hx
    · exact Nat.le_refl _
    · exact Nat.le_of_succ_le (ih (b + 1) x hx)

/-! ## Pointwise facts about `updMap` on the three plan shapes -/

theorem updMap_cons_unchanged {u : LiveRecord} {us : List LiveRecord}
    {up : List (LiveRecord × DesiredRecord)} {c : List DesiredRecord}
    {del : List LiveRecord} {x : LiveRecord} (h : (u.id == x.id) = false) :
    updMap ⟨u :: us, up, c, del⟩ x = updMap ⟨us, up, c, del⟩ x := by
  unfold updMap
  simp only [List.any_cons, h, Bool.false_or]

theorem updMap_cons_unchanged_self {u : LiveRecord} {us : List LiveRecord}
    {up : List (LiveRecord × DesiredRecord)} {c : List DesiredRecord}
    {del : List LiveRecord} {x : LiveRecord} (h : (u.id == x.id) = true) :
    updMap ⟨u :: us, up, c, del⟩ x = some x := by
  unfold updMap
  simp only [List.any_cons, h, Bool.true_or, if_true]

theorem updMap_cons_update {uv : LiveRecord × DesiredRecord}
    {us : List LiveRecord} {up : List (LiveRecord × DesiredRecord)}
    {c : List DesiredRecord} {del : List LiveRecord} {x : LiveRecord}
    (h : (uv.1.id == x.id) = false) :
    updMap ⟨us, uv :: up, c, del⟩ x = updMap ⟨us, up, c, del⟩ x := by
  unfold updMap
  simp only [List.find?_cons, h]

theorem updMap_cons_update_self {uv : LiveRecord × DesiredRecord}
    {us : List LiveRecord} {up : List (LiveRecord × DesiredRecord)}
    {c : List DesiredRecord} {del : List LiveRecord} {x : LiveRecord}
    (hany : (us.any (fun u => u.id == x.id)) = false)
    (h : (uv.1.id == x.id) = true) :
    updMap ⟨us, uv :: up, c, del⟩ x = some (toLive uv.2 x.id) := by
  unfold updMap
  simp only [List.find?_cons, h, hany, Bool.false_eq_true, if_false]

theorem filterMap_updMap_id_lt {p : Plan} {live : List LiveRecord} {base : Nat}
    (h : ∀ cf ∈ live, cf.id < base) :
    ∀ y ∈ live.filterMap (updMap p), y.id < base := by
  intro y hy
  obtain ⟨l, hl, hfl⟩ := List.mem_filterMap.mp hy
  rw [updMap_some_id hfl]
  exact h l hl

theorem no_match_filterMap {ds : List DesiredRecord} {live : List LiveRecord}
    {processed : List Nat} (hnd : (live.map LiveRecord.id).Nodup)
    {L : List LiveRecord} (hsub : ∀ x ∈ L, x ∈ live)
    {d : DesiredRecord} (hnm : ∀ x ∈ L, contentMatches x d = false) :
    ∀ y ∈ L.filterMap (updMap (planLoop ds live processed)),
      contentMatches y d = false := by
  intro y hy
  obtain ⟨l, hl, hfl⟩ := List.mem_filterMap.mp hy
  have hck := updMap_planLoop_ckey hnd (hsub l hl) hfl
  rw [contentMatches_congr hck d]
  exact hnm l hl

/-! ## Plumbing for the idempotence proof -/

theorem findContentMatch_nil (live : List LiveRecord) (d : DesiredRecord) :
    findContentMatch live [] d = live.find? (fun cf => contentMatches cf d) := by
  unfold findContentMatch
  congr 1

theorem findContentMatch_nil_append {A B : List LiveRecord} {d : DesiredRecord}
    (h : ∀ y ∈ A, contentMatches y d = false) :
    findContentMatch (A ++ B) [] d = findContentMatch B [] d := by
  rw [findContentMatch_nil, findContentMatch_nil, List.find?_append]
  have hA : A.find? (fun cf => contentMatches cf d) = none :=
    List.find?_eq_none.mpr (by intro x hx; simp [h x hx])
  rw [hA, Option.none_or]

theorem findContentMatch_cons_true {x : LiveRecord} {B : List LiveRecord}
    {d : DesiredRecord} (h : contentMatches x d = true) :
    findContentMatch (x :: B) [] d = some x := by
  rw [findContentMatch_nil, List.find?_cons, h]

theorem filter_ne_id_eq_self {l : List LiveRecord} {i : Nat}
    (h : ∀ x ∈ l, x.id ≠ i) :
    l.filter (fun x => !([i] : List Nat).contains x.id) = l := by
  apply List.filter_eq_self.mpr
  intro a ha
  simp only [List.contains_cons, Bool.or_eq_true, Bool.not_eq_eq_eq_not,
    Bool.not_true, Bool.or_eq_false_iff]
  constructor
  · exact beq_eq_false_iff_ne.mpr (h a ha)
  · rfl

theorem filter_cons_self_id (x : LiveRecord) (l : List LiveRecord) :
    (x :: l).filter (fun y => !([x.id] : List Nat).contains y.id)
      = l.filter (fun y => !([x.id] : List Nat).contains y.id) := by
  rw [List.filter_cons]
  simp [List.contains_cons]

theorem filter_cons_id_eq {x : LiveRecord} {l : List LiveRecord} {i : Nat}
    (h : x.id = i) :
    (x :: l).filter (fun y => !([i] : List Nat).contains y.id)
      = l.filter (fun y => !([i] : List Nat).contains y.id) := by
  rw [List.filter_cons]
  simp [List.contains_cons, h]

theorem nodup_split_ids {L1 L2 : List LiveRecord} {cf : LiveRecord}
    (hnd : ((L1 ++ cf :: L2).map LiveRecord.id).Nodup) :
    (∀ x ∈ L1, x.id ≠ cf.id) ∧ (∀ x ∈ L2, x.id ≠ cf.id) := by
  rw [List.map_append, List.map_cons, List.nodup_append] at hnd
  obtain ⟨h1, h2, hdisj⟩ := hnd
  constructor
  · intro x hx heq
    exact hdisj (List.mem_map_of_mem _ hx)
      (by rw [heq]; exact List.mem_cons_self _ _)
  · intro x hx heq
    exact (List.nodup_cons.mp h2).1
      (by rw [← heq]; exact List.mem_map_of_mem _ hx)

/-! ## Idempotence of the per-name reconciliation

After a fully successful application of the plan, re-running the matching
loop classifies everything unchanged. -/

def IdemGoal (ds : List DesiredRecord) (live : List LiveRecord) (base : Nat) : Prop :=
  (planLoop ds (applyPlan live (planLoop ds live []) base) []).updates = []
  ∧ (planLoop ds (applyPlan live (planLoop ds live []) base) []).creates = []
  ∧ (planLoop ds (applyPlan live (planLoop ds live []) base) []).deletes = []
  ∧ (planLoop ds (applyPlan live (planLoop ds live []) base) []).unchanged.length
      = ds.length

theorem idem_nil (live : List LiveRecord) (base : Nat) : IdemGoal [] live base := by
  unfold IdemGoal
  have h1 : planLoop [] live [] = ⟨[], [], [], live⟩ := by
    rw [planLoop_nil]
    have h : live.filter (fun cf => !([] : List Nat).contains cf.id) = live :=
      List.filter_eq_self.mpr (fun a _ => rfl)
    rw [h]
  rw [h1]
  have h2 : applyPlan live ⟨[], [], [], live⟩ base = [] := by
    unfold applyPlan
    have hpt : ∀ x ∈ live, updMap ⟨[], [], [], live⟩ x = (none : Option LiveRecord) :=
      fun x _ => rfl
    rw [List.filterMap_congr hpt, filterMap_const_none]
    rfl
  rw [h2]
  exact ⟨rfl, rfl, rfl, rfl⟩

theorem idem_cons_none (d : DesiredRecord) (rest : List DesiredRecord)
    (ih : ∀ (live : List LiveRecord) (base : Nat), (live.map LiveRecord.id).Nodup →
      (∀ cf ∈ live, cf.id < base) → IdemGoal rest live base)
    (live : List LiveRecord) (base : Nat)
    (hnd : (live.map LiveRecord.id).Nodup) (hlt : ∀ cf ∈ live, cf.id < base)
    (hf : findContentMatch live [] d = none) :
    IdemGoal (d :: rest) live base := by
  have hnm : ∀ x ∈ live, contentMatches x d = false := by
    rw [findContentMatch_nil] at hf
    intro x hx
    have h := List.find?_eq_none.mp hf x hx
    rwa [Bool.not_eq_true] at h
  have hq := planLoop_cons_none rest hf
  unfold IdemGoal
  rw [hq]
  have happ : applyPlan live
      ⟨(planLoop rest live []).unchanged, (planLoop rest live []).updates,
       d :: (planLoop rest live []).creates, (planLoop rest live []).deletes⟩ base
      = live.filterMap (updMap (planLoop rest live []))
        ++ (toLive d base :: withFresh (planLoop rest live []).creates (base + 1)) := rfl
  rw [happ]
  have hAnm := @no_match_filterMap rest live [] hnd live
    (fun x hx => hx) d hnm
  have hfind2 : findContentMatch
      (live.filterMap (updMap (planLoop rest live []))
        ++ (toLive d base :: withFresh (planLoop rest live []).creates (base + 1))) [] d
      = some (toLive d base) := by
    rw [findContentMatch_nil_append hAnm,
      findContentMatch_cons_true (contentMatches_toLive d base)]
  rw [planLoop_cons_proxy rest hfind2 (proxyMatches_toLive d base)]
  have hP2 : planLoop rest
      (live.filterMap (updMap (planLoop rest live []))
        ++ (toLive d base :: withFresh (planLoop rest live []).creates (base + 1)))
      ((toLive d base).id :: [])
      = planLoop rest (applyPlan live (planLoop rest live []) (base + 1)) [] := by
    rw [planLoop_filter]
    congr 1
    rw [List.filter_append]
    have e1 : (live.filterMap (updMap (planLoop rest live []))).filter
        (fun x => !([(toLive d base).id] : List Nat).contains x.id)
        = live.filterMap (updMap (planLoop rest live [])) :=
      filter_ne_id_eq_self
        (fun y hy => Nat.ne_of_lt (filterMap_updMap_id_lt hlt y hy))
    rw [e1, filter_cons_self_id]
    have e2 : (withFresh (planLoop rest live []).creates (base + 1)).filter
        (fun x => !([(toLive d base).id] : List Nat).contains x.id)
        = withFresh (planLoop rest live []).creates (base + 1) :=
      filter_ne_id_eq_self
        (fun y hy =>
          (Nat.ne_of_lt (Nat.lt_of_succ_le (withFresh_id_ge _ _ y hy))).symm)
    rw [e2]
    rfl
  rw [hP2]
  obtain ⟨h1, h2, h3, h4⟩ := ih live (base + 1) hnd
    (fun cf hcf => Nat.lt_succ_of_lt (hlt cf hcf))
  refine ⟨h1, h2, h3, ?_⟩
  show (toLive d base
      :: (planLoop rest (applyPlan live (planLoop rest live []) (base + 1)) []).unchanged).length
    = (d :: rest).length
  rw [List.length_cons, List.length_cons, h4]

theorem filterMap_cons_some {α β : Type} (f : α → Option β) (a : α)
    (l : List α) {b : β} (h : f a = some b) :
    (a :: l).filterMap f = b :: l.filterMap f := by
  rw [List.filterMap_cons, h]

theorem idem_cons_proxy (d : DesiredRecord) (rest : List DesiredRecord)
    (ih : ∀ (live : List LiveRecord) (base : Nat), (live.map LiveRecord.id).Nodup →
      (∀ cf ∈ live, cf.id < base) → IdemGoal rest live base)
    (live : List LiveRecord) (base : Nat)
    (hnd : (live.map LiveRecord.id).Nodup) (hlt : ∀ cf ∈ live, cf.id < base)
    {cf : LiveRecord} (hf : findContentMatch live [] d = some cf)
    (hp : proxyMatches cf d = true) :
    IdemGoal (d :: rest) live base := by
  obtain ⟨hcfmem, -, hcm⟩ := findContentMatch_spec hf
  have hf' : live.find? (fun x => contentMatches x d) = some cf := by
    rw [← findContentMatch_nil]; exact hf
  obtain ⟨L1, L2, hsplit, hL1⟩ := find?_eq_some_split hf'
  subst hsplit
  obtain ⟨hne1, hne2⟩ := nodup_split_ids hnd
  have hfilters : (L1 ++ cf :: L2).filter
      (fun x => !((cf.id :: []) : List Nat).contains x.id) = L1 ++ L2 := by
    rw [List.filter_append, filter_ne_id_eq_self hne1, filter_cons_self_id,
      filter_ne_id_eq_self hne2]
  have hq : planLoop rest (L1 ++ cf :: L2) (cf.id :: [])
      = planLoop rest (L1 ++ L2) [] := by
    rw [planLoop_filter, hfilters]
  have hnd2 : ((L1 ++ L2).map LiveRecord.id).Nodup := by
    rw [← hfilters]
    exact ((List.filter_sublist (L1 ++ cf :: L2)).map LiveRecord.id).nodup hnd
  have hlt2 : ∀ x ∈ L1 ++ L2, x.id < base := by
    intro x hx
    rcases List.mem_append.mp hx with h | h
    · exact hlt x (List.mem_append.mpr (Or.inl h))
    · exact hlt x (List.mem_append.mpr (Or.inr (List.mem_cons_of_mem _ h)))
  have hstep := planLoop_cons_proxy rest hf hp
  unfold IdemGoal
  rw [hstep, hq]
  have hcf_self : updMap
      ⟨cf :: (planLoop rest (L1 ++ L2) []).unchanged,
       (planLoop rest (L1 ++ L2) []).updates,
       (planLoop rest (L1 ++ L2) []).creates,
       (planLoop rest (L1 ++ L2) []).deletes⟩ cf = some cf :=
    updMap_cons_unchanged_self (beq_self_eq_true cf.id)
  have hL1map : L1.filterMap (updMap
      ⟨cf :: (planLoop rest (L1 ++ L2) []).unchanged,
       (planLoop rest (L1 ++ L2) []).updates,
       (planLoop rest (L1 ++ L2) []).creates,
       (planLoop rest (L1 ++ L2) []).deletes⟩)
      = L1.filterMap (updMap (planLoop rest (L1 ++ L2) [])) :=
    List.filterMap_congr (fun x hx =>
      updMap_cons_unchanged (beq_eq_false_iff_ne.mpr (Ne.symm (hne1 x hx))))
  have hL2map : L2.filterMap (updMap
      ⟨cf :: (planLoop rest (L1 ++ L2) []).unchanged,
       (planLoop rest (L1 ++ L2) []).updates,
       (planLoop rest (L1 ++ L2) []).creates,
       (planLoop rest (L1 ++ L2) []).deletes⟩)
      = L2.filterMap (updMap (planLoop rest (L1 ++ L2) [])) :=
    List.filterMap_congr (fun x hx =>
      updMap_cons_unchanged (beq_eq_false_iff_ne.mpr (Ne.symm (hne2 x hx))))
  have happ : applyPlan (L1 ++ cf :: L2)
      ⟨cf :: (planLoop rest (L1 ++ L2) []).unchanged,
       (planLoop rest (L1 ++ L2) []).updates,
       (planLoop rest (L1 ++ L2) []).creates,
       (planLoop rest (L1 ++ L2) []).deletes⟩ base
      = L1.filterMap (updMap (planLoop rest (L1 ++ L2) []))
        ++ (cf :: (L2.filterMap (updMap (planLoop rest (L1 ++ L2) []))
          ++ withFresh (planLoop rest (L1 ++ L2) []).creates base)) := by
    show (L1 ++ cf :: L2).filterMap (updMap
        ⟨cf :: (planLoop rest (L1 ++ L2) []).unchanged,
         (planLoop rest (L1 ++ L2) []).updates,
         (planLoop rest (L1 ++ L2) []).creates,
         (planLoop rest (L1 ++ L2) []).deletes⟩)
        ++ withFresh (planLoop rest (L1 ++ L2) []).creates base = _
    rw [List.filterMap_append, filterMap_cons_some _ _ _ hcf_self, hL1map, hL2map,
      List.append_assoc, List.cons_append]
  rw [happ]
  have hA1nm : ∀ y ∈ L1.filterMap (updMap (planLoop rest (L1 ++ L2) [])),
      contentMatches y d = false :=
    @no_match_filterMap rest (L1 ++ L2) [] hnd2 L1
      (fun x hx => List.mem_append.mpr (Or.inl hx)) d hL1
  have hfind2 : findContentMatch
      (L1.filterMap (updMap (planLoop rest (L1 ++ L2) []))
        ++ (cf :: (L2.filterMap (updMap (planLoop rest (L1 ++ L2) []))
          ++ withFresh (planLoop rest (L1 ++ L2) []).creates base))) [] d
      = some cf := by
    rw [findContentMatch_nil_append hA1nm, findContentMatch_cons_true hcm]
  rw [planLoop_cons_proxy rest hfind2 hp]
  have hA1ids : ∀ y ∈ L1.filterMap (updMap (planLoop rest (L1 ++ L2) [])),
      y.id ≠ cf.id := by
    intro y hy
    obtain ⟨l, hl, hfl⟩ := List.mem_filterMap.mp hy
    rw [updMap_some_id hfl]
    exact hne1 l hl
  have hA2ids : ∀ y ∈ L2.filterMap (updMap (planLoop rest (L1 ++ L2) [])),
      y.id ≠ cf.id := by
    intro y hy
    obtain ⟨l, hl, hfl⟩ := List.mem_filterMap.mp hy
    rw [updMap_some_id hfl]
    exact hne2 l hl
  have hCids : ∀ y ∈ withFresh (planLoop rest (L1 ++ L2) []).creates base,
      y.id ≠ cf.id := by
    intro y hy
    have h1 : base ≤ y.id := withFresh_id_ge _ _ y hy
    have h2 : cf.id < base := hlt cf (List.mem_append.mpr (Or.inr (List.mem_cons_self _ _)))
    exact (Nat.ne_of_lt (Nat.lt_of_lt_of_le h2 h1)).symm
  have happly2 : applyPlan (L1 ++ L2) (planLoop rest (L1 ++ L2) []) base
      = L1.filterMap (updMap (planLoop rest (L1 ++ L2) []))
        ++ (L2.filterMap (updMap (planLoop rest (L1 ++ L2) []))
          ++ withFresh (planLoop rest (L1 ++ L2) []).creates base) := by
    show (L1 ++ L2).filterMap (updMap (planLoop rest (L1 ++ L2) []))
        ++ withFresh (planLoop rest (L1 ++ L2) []).creates base = _
    rw [List.filterMap_append, List.append_assoc]
  have hP2 : planLoop rest
      (L1.filterMap (updMap (planLoop rest (L1 ++ L2) []))
        ++ (cf :: (L2.filterMap (updMap (planLoop rest (L1 ++ L2) []))
          ++ withFresh (planLoop rest (L1 ++ L2) []).creates base)))
      (cf.id :: [])
      = planLoop rest (applyPlan (L1 ++ L2) (planLoop rest (L1 ++ L2) []) base) [] := by
    rw [happly2, planLoop_filter]
    congr 1
    rw [List.filter_append, filter_ne_id_eq_self hA1ids, filter_cons_self_id,
      List.filter_append, filter_ne_id_eq_self hA2ids, filter_ne_id_eq_self hCids]
  rw [hP2]
  obtain ⟨h1, h2, h3, h4⟩ := ih (L1 ++ L2) base hnd2 hlt2
  refine ⟨h1, h2, h3, ?_⟩
  show (cf :: (planLoop rest
      (applyPlan (L1 ++ L2) (planLoop rest (L1 ++ L2) []) base) []).unchanged).length
    = (d :: rest).length
  rw [List.length_cons, List.length_cons, h4]

theorem idem_cons_noproxy (d : DesiredRecord) (rest : List DesiredRecord)
    (ih : ∀ (live : List LiveRecord) (base : Nat), (live.map LiveRecord.id).Nodup →
      (∀ cf ∈ live, cf.id < base) → IdemGoal rest live base)
    (live : List LiveRecord) (base : Nat)
    (hnd : (live.map LiveRecord.id).Nodup) (hlt : ∀ cf ∈ live, cf.id < base)
    {cf : LiveRecord} (hf : findContentMatch live [] d = some cf)
    (hp : proxyMatches cf d = false) :
    IdemGoal (d :: rest) live base := by
  obtain ⟨hcfmem, -, hcm⟩ := findContentMatch_spec hf
  have hf' : live.find? (fun x => contentMatches x d) = some cf := by
    rw [← findContentMatch_nil]; exact hf
  obtain ⟨L1, L2, hsplit, hL1⟩ := find?_eq_some_split hf'
  subst hsplit
  obtain ⟨hne1, hne2⟩ := nodup_split_ids hnd
  have hfilters : (L1 ++ cf :: L2).filter
      (fun x => !((cf.id :: []) : List Nat).contains x.id) = L1 ++ L2 := by
    rw [List.filter_append, filter_ne_id_eq_self hne1, filter_cons_self_id,
      filter_ne_id_eq_self hne2]
  have hq : planLoop rest (L1 ++ cf :: L2) (cf.id :: [])
      = planLoop rest (L1 ++ L2) [] := by
    rw [planLoop_filter, hfilters]
  have hnd2 : ((L1 ++ L2).map LiveRecord.id).Nodup := by
    rw [← hfilters]
    exact ((List.filter_sublist (L1 ++ cf :: L2)).map LiveRecord.id).nodup hnd
  have hlt2 : ∀ x ∈ L1 ++ L2, x.id < base := by
    intro x hx
    rcases List.mem_append.mp hx with h | h
    · exact hlt x (List.mem_append.mpr (Or.inl h))
    · exact hlt x (List.mem_append.mpr (Or.inr (List.mem_cons_of_mem _ h)))
  have hstep := planLoop_cons_noproxy rest hf hp
  unfold IdemGoal
  rw [hstep, hq]
  have hany : (planLoop rest (L1 ++ L2) []).unchanged.any
      (fun u => u.id == cf.id) = false := by
    apply List.any_eq_false.mpr
    intro u hu
    obtain ⟨humem, -⟩ := planLoop_unchanged_spec rest (L1 ++ L2) [] u hu
    have hune : u.id ≠ cf.id := by
      rcases List.mem_append.mp humem with h | h
      · exact hne1 u h
      · exact hne2 u h
    simp [hune]
  have hcf_upd : updMap
      ⟨(planLoop rest (L1 ++ L2) []).unchanged,
       (cf, d) :: (planLoop rest (L1 ++ L2) []).updates,
       (planLoop rest (L1 ++ L2) []).creates,
       (planLoop rest (L1 ++ L2) []).deletes⟩ cf = some (toLive d cf.id) :=
    updMap_cons_update_self hany (beq_self_eq_true cf.id)
  have hL1map : L1.filterMap (updMap
      ⟨(planLoop rest (L1 ++ L2) []).unchanged,
       (cf, d) :: (planLoop rest (L1 ++ L2) []).updates,
       (planLoop rest (L1 ++ L2) []).creates,
       (planLoop rest (L1 ++ L2) []).deletes⟩)
      = L1.filterMap (updMap (planLoop rest (L1 ++ L2) [])) :=
    List.filterMap_congr (fun x hx =>
      updMap_cons_update (beq_eq_false_iff_ne.mpr (Ne.symm (hne1 x hx))))
  have hL2map : L2.filterMap (updMap
      ⟨(planLoop rest (L1 ++ L2) []).unchanged,
       (cf, d) :: (planLoop rest (L1 ++ L2) []).updates,
       (planLoop rest (L1 ++ L2) []).creates,
       (planLoop rest (L1 ++ L2) []).deletes⟩)
      = L2.filterMap (updMap (planLoop rest (L1 ++ L2) [])) :=
    List.filterMap_congr (fun x hx =>
      updMap_cons_update (beq_eq_false_iff_ne.mpr (Ne.symm (hne2 x hx))))
  have happ : applyPlan (L1 ++ cf :: L2)
      ⟨(planLoop rest (L1 ++ L2) []).unchanged,
       (cf, d) :: (planLoop rest (L1 ++ L2) []).updates,
       (planLoop rest (L1 ++ L2) []).creates,
       (planLoop rest (L1 ++ L2) []).deletes⟩ base
      = L1.filterMap (updMap (planLoop rest (L1 ++ L2) []))
        ++ (toLive d cf.id :: (L2.filterMap (updMap (planLoop rest (L1 ++ L2) []))
          ++ withFresh (planLoop rest (L1 ++ L2) []).creates base)) := by
    show (L1 ++ cf :: L2).filterMap (updMap
        ⟨(planLoop rest (L1 ++ L2) []).unchanged,
         (cf, d) :: (planLoop rest (L1 ++ L2) []).updates,
         (planLoop rest (L1 ++ L2) []).creates,
         (planLoop rest (L1 ++ L2) []).deletes⟩)
        ++ withFresh (planLoop rest (L1 ++ L2) []).creates base = _
    rw [List.filterMap_append, filterMap_cons_some _ _ _ hcf_upd, hL1map, hL2map,
      List.append_assoc, List.cons_append]
  rw [happ]
  have hA1nm : ∀ y ∈ L1.filterMap (updMap (planLoop rest (L1 ++ L2) [])),
      contentMatches y d = false :=
    @no_match_filterMap rest (L1 ++ L2) [] hnd2 L1
      (fun x hx => List.mem_append.mpr (Or.inl hx)) d hL1
  have hfind2 : findContentMatch
      (L1.filterMap (updMap (planLoop rest (L1 ++ L2) []))
        ++ (toLive d cf.id :: (L2.filterMap (updMap (planLoop rest (L1 ++ L2) []))
          ++ withFresh (planLoop rest (L1 ++ L2) []).creates base))) [] d
      = some (toLive d cf.id) := by
    rw [findContentMatch_nil_append hA1nm,
      findContentMatch_cons_true (contentMatches_toLive d cf.id)]
  rw [planLoop_cons_proxy rest hfind2 (proxyMatches_toLive d cf.id)]
  have hA1ids : ∀ y ∈ L1.filterMap (updMap (planLoop rest (L1 ++ L2) [])),
      y.id ≠ (toLive d cf.id).id := by
    intro y hy
    obtain ⟨l, hl, hfl⟩ := List.mem_filterMap.mp hy
    rw [updMap_some_id hfl]
    exact hne1 l hl
  have hA2ids : ∀ y ∈ L2.filterMap (updMap (planLoop rest (L1 ++ L2) [])),
      y.id ≠ (toLive d cf.id).id := by
    intro y hy
    obtain ⟨l, hl, hfl⟩ := List.mem_filterMap.mp hy
    rw [updMap_some_id hfl]
    exact hne2 l hl
  have hCids : ∀ y ∈ withFresh (planLoop rest (L1 ++ L2) []).creates base,
      y.id ≠ (toLive d cf.id).id := by
    intro y hy
    have h1 : base ≤ y.id := withFresh_id_ge _ _ y hy
    have h2 : cf.id < base := hlt cf (List.mem_append.mpr (Or.inr (List.mem_cons_self _ _)))
    exact (Nat.ne_of_lt (Nat.lt_of_lt_of_le h2 h1)).symm
  have happly2 : applyPlan (L1 ++ L2) (planLoop rest (L1 ++ L2) []) base
      = L1.filterMap (updMap (planLoop rest (L1 ++ L2) []))
        ++ (L2.filterMap (updMap (planLoop rest (L1 ++ L2) []))
          ++ withFresh (planLoop rest (L1 ++ L2) []).creates base) := by
    show (L1 ++ L2).filterMap (updMap (planLoop rest (L1 ++ L2) []))
        ++ withFresh (planLoop rest (L1 ++ L2) []).creates base = _
    rw [List.filterMap_append, List.append_assoc]
  have hP2 : planLoop rest
      (L1.filterMap (updMap (planLoop rest (L1 ++ L2) []))
        ++ (toLive d cf.id :: (L2.filterMap (updMap (planLoop rest (L1 ++ L2) []))
          ++ withFresh (planLoop rest (L1 ++ L2) []).creates base)))
      ((toLive d cf.id).id :: [])
      = planLoop rest (applyPlan (L1 ++ L2) (planLoop rest (L1 ++ L2) []) base) [] := by
    rw [happly2, planLoop_filter]
    congr 1
    rw [List.filter_append, filter_ne_id_eq_self hA1ids, filter_cons_id_eq rfl,
      List.filter_append, filter_ne_id_eq_self hA2ids, filter_ne_id_eq_self hCids]
  rw [hP2]
  obtain ⟨h1, h2, h3, h4⟩ := ih (L1 ++ L2) base hnd2 hlt2
  refine ⟨h1, h2, h3, ?_⟩
  show (toLive d cf.id :: (planLoop rest
      (applyPlan (L1 ++ L2) (planLoop rest (L1 ++ L2) []) base) []).unchanged).length
    = (d :: rest).length
  rw [List.length_cons, List.length_cons, h4]

theorem planLoop_idempotent (ds : List DesiredRecord) :
    ∀ (live : List LiveRecord) (base : Nat),
      (live.map LiveRecord.id).Nodup →
      (∀ cf ∈ live, cf.id < base) →
      IdemGoal ds live base := by
  induction ds with
  | nil => intro live base _ _; exact idem_nil live base
  | cons d rest ih =>
    intro live base hnd hlt
    cases hf : findContentMatch live [] d with
    | none => exact idem_cons_none d rest ih live base hnd hlt hf
    | some cf =>
      cases hp : proxyMatches cf d with
      | true => exact idem_cons_proxy d rest ih live base hnd hlt hf hp
      | false => exact idem_cons_noproxy d rest ih live base hnd hlt hf hp

/-! ## Claim C2: attribute comparison (proxied yes, ttl no) -/

def c2d : DesiredRecord := ⟨"A", "www.example.com", "1.2.3.4", 300, none, none⟩
def c2l : LiveRecord := ⟨1, "A", "www.example.com", "1.2.3.4", 1, none, none⟩

/-- C2 counterexample: an A record pair whose content and proxied status
agree but whose ttl differs (live ttl 1, desired ttl 300) is classified
unchanged by the matching loop, not needs-update: the code never compares
ttl. -/
theorem C2_counterexample :
    c2l.ttl ≠ c2d.ttl ∧ planLoop [c2d] [c2l] [] = ⟨[c2l], [], [], []⟩ := by
  constructor
  · decide
  · rfl

/-- C2 amended: on a content match the classification compares only
`proxied` (via `get("proxied", False)`, and only when the desired type is
A/AAAA/CNAME); `ttl` is never compared.  A content match with a proxied
mismatch is an update carrying the live record (hence its provider id); a
content-and-proxied match is unchanged even when ttl differs. -/
theorem C2_amended_theorem (cf : LiveRecord) (d : DesiredRecord)
    (h : contentMatches cf d = true) :
    planLoop [d] [cf] [] =
      if proxyMatches cf d then ⟨[cf], [], [], []⟩
      else ⟨[], [(cf, d)], [], []⟩ := by
  have hf : findContentMatch [cf] [] d = some cf := findContentMatch_cons_true h
  have hd : ([cf].filter (fun x => !((cf.id :: []) : List Nat).contains x.id))
      = ([] : List LiveRecord) := by
    rw [filter_cons_id_eq rfl]
    rfl
  cases hp : proxyMatches cf d with
  | true =>
    rw [planLoop_cons_proxy [] hf hp, planLoop_nil, if_pos rfl, hd]
  | false =>
    rw [planLoop_cons_noproxy [] hf hp, planLoop_nil,
      if_neg (by decide), hd]

def c2wd : DesiredRecord := ⟨"A", "www.example.com", "1.2.3.4", 1, none, some true⟩

/-- Witness for `C2_amended_theorem` at a concrete proxied-mismatch pair. -/
theorem C2_amended_witness :
    planLoop [c2wd] [c2l] [] = ⟨[], [(c2l, c2wd)], [], []⟩ := by
  have h := C2_amended_theorem c2l c2wd rfl
  rwa [if_neg (by decide)] at h

/-! ## Claim C3: type-specific content equality -/

def c3d : DesiredRecord := ⟨"CNAME", "x.example.com", "target.example.com", 1, none, none⟩
def c3lCase : LiveRecord := ⟨2, "CNAME", "x.example.com", "Target.example.com", 1, none, none⟩
def c3lDot : LiveRecord := ⟨3, "CNAME", "x.example.com", "target.example.com.", 1, none, none⟩

/-- C3 counterexample: a live CNAME whose target differs only in letter
case from the desired target is NOT matched (the code compares CNAME
content case-sensitively, only stripping trailing dots): it is classified
as a create of the desired record plus a delete of the live one, while the
claim's "case-insensitively" would demand unchanged. -/
theorem C3_counterexample :
    planLoop [c3d] [c3lCase] [] = ⟨[], [], [c3d], [c3lCase]⟩ := by
  rfl

/-- C3 amended: CNAME targets are compared with trailing dots stripped
but case-sensitively; MX content is compared literally (no dot stripping,
no case folding) together with priority; every other type compares
content literally.  The trailing-dot example still holds: a live CNAME
`"target.example.com."` matches desired `"target.example.com"` and is
classified unchanged. -/
theorem C3_amended_theorem :
    (∀ (cf : LiveRecord) (d : DesiredRecord), cf.rtype = "CNAME" → d.rtype = "CNAME" →
      contentMatches cf d = (rstripDots cf.content == rstripDots d.content))
    ∧ (∀ (cf : LiveRecord) (d : DesiredRecord), cf.rtype = "MX" → d.rtype = "MX" →
      contentMatches cf d = ((cf.content == d.content) && (cf.priority == d.priority)))
    ∧ (∀ (cf : LiveRecord) (d : DesiredRecord), cf.rtype = d.rtype →
      cf.rtype ≠ "CNAME" → cf.rtype ≠ "MX" →
      contentMatches cf d = (cf.content == d.content))
    ∧ planLoop [c3d] [c3lDot] [] = ⟨[c3lDot], [], [], []⟩ := by
  refine ⟨?_, ?_, ?_, ?_⟩
  · intro cf d h1 h2
    unfold contentMatches
    simp [h1, h2]
  · intro cf d h1 h2
    unfold contentMatches
    simp [h1, h2, Bool.and_assoc]
  · intro cf d h1 h2 h3
    have h2d : d.rtype ≠ "CNAME" := by rw [← h1]; exact h2
    have h3d : d.rtype ≠ "MX" := by rw [← h1]; exact h3
    unfold contentMatches
    simp [h1, beq_eq_false_iff_ne.mpr h2d, beq_eq_false_iff_ne.mpr h3d, bne]
  · rfl

/-- Witness for `C3_amended_theorem`: the MX clause evaluated at a
concrete pair differing only by a trailing dot (no match). -/
theorem C3_amended_witness :
    contentMatches ⟨4, "MX", "m.example.com", "mail.example.com.", 1, some 10, none⟩
        ⟨"MX", "m.example.com", "mail.example.com", 1, some 10, none⟩
      = ((("mail.example.com." : String) == "mail.example.com")
          && ((some 10 : Option Nat) == some 10)) :=
  C3_amended_theorem.2.1 _ _ rfl rfl

/-! ## Claim C4: MX with differing priority -/

def c4d : DesiredRecord := ⟨"MX", "mx.example.com", "mail.example.com", 1, some 10, none⟩
def c4l : LiveRecord := ⟨5, "MX", "mx.example.com", "mail.example.com", 1, some 20, none⟩

/-- C4 counterexample: desired MX priority 10 against live MX priority 20
with the same mail-exchange host is classified as a create of the desired
record plus a delete of the live one — updates is empty, contradicting
the claim's needs-update. -/
theorem C4_counterexample :
    planLoop [c4d] [c4l] [] = ⟨[], [], [c4d], [c4l]⟩ := by
  rfl

/-- C4 amended: because MX priority equality is part of the content
match, an MX pair with the same host but differing priority finds no
match: the desired record is created and the unclaimed live record is
deleted; no update is issued. -/
theorem C4_amended_theorem (cf : LiveRecord) (d : DesiredRecord)
    (ht1 : cf.rtype = "MX") (ht2 : d.rtype = "MX")
    (hc : cf.content = d.content) (hp : cf.priority ≠ d.priority) :
    planLoop [d] [cf] [] = ⟨[], [], [d], [cf]⟩ := by
  have hnm : contentMatches cf d = false := by
    unfold contentMatches
    simp [ht1, ht2, hc, hp]
  have hf : findContentMatch [cf] [] d = none := by
    rw [findContentMatch_nil]
    apply List.find?_eq_none.mpr
    intro x hx
    rcases List.mem_cons.mp hx with rfl | hx
    · simp [hnm]
    · cases hx
  rw [planLoop_cons_none [] hf, planLoop_nil]
  have hd : ([cf].filter (fun x => !(([] : List Nat)).contains x.id)) = [cf] :=
    List.filter_eq_self.mpr (fun a _ => rfl)
  rw [hd]

/-- Witness for `C4_amended_theorem` at the concrete priority-10/20 pair. -/
theorem C4_amended_witness :
    planLoop [c4d] [c4l] [] = ⟨[], [], [c4d], [c4l]⟩ :=
  C4_amended_theorem c4l c4d rfl rfl rfl (by decide)

/-! ## Claim C8: greedy matching never reuses a claimed live record -/

def claimedIds (p : Plan) : List Nat :=
  p.unchanged.map LiveRecord.id ++ p.updates.map (fun ud => ud.1.id)

theorem claimedIds_spec (ds : List DesiredRecord) :
    ∀ (live : List LiveRecord) (processed : List Nat),
      (claimedIds (planLoop ds live processed)).Nodup
      ∧ ∀ i ∈ claimedIds (planLoop ds live processed),
          processed.contains i = false := by
  induction ds with
  | nil =>
    intro live processed
    rw [planLoop_nil]
    exact ⟨List.nodup_nil, fun i hi => by cases hi⟩
  | cons d rest ih =>
    intro live processed
    cases hf : findContentMatch live processed d with
    | none =>
      rw [planLoop_cons_none rest hf]
      exact ih live processed
    | some cf =>
      obtain ⟨-, hnp, -⟩ := findContentMatch_spec hf
      obtain ⟨ihn, ihp⟩ := ih live (cf.id :: processed)
      have hnotmem : cf.id ∉ claimedIds (planLoop rest live (cf.id :: processed)) := by
        intro hmem
        have := ihp cf.id hmem
        rw [List.contains_cons] at this
        rw [beq_self_eq_true] at this
        simp at this
      cases hp : proxyMatches cf d with
      | true =>
        rw [planLoop_cons_proxy rest hf hp]
        constructor
        · show (cf.id :: claimedIds (planLoop rest live (cf.id :: processed))).Nodup
          exact List.nodup_cons.mpr ⟨hnotmem, ihn⟩
        · intro i hi
          rcases List.mem_cons.mp hi with rfl | hi
          · exact hnp
          · exact contains_tail_eq_false (ihp i hi)
      | false =>
        rw [planLoop_cons_noproxy rest hf hp]
        have hperm : (claimedIds
            ⟨(planLoop rest live (cf.id :: processed)).unchanged,
             (cf, d) :: (planLoop rest live (cf.id :: processed)).updates,
             (planLoop rest live (cf.id :: processed)).creates,
             (planLoop rest live (cf.id :: processed)).deletes⟩).Perm
            (cf.id :: claimedIds (planLoop rest live (cf.id :: processed))) := by
          show ((planLoop rest live (cf.id :: processed)).unchanged.map LiveRecord.id
              ++ cf.id :: (planLoop rest live (cf.id :: processed)).updates.map
                  (fun ud => ud.1.id)).Perm
            (cf.id :: ((planLoop rest live (cf.id :: processed)).unchanged.map LiveRecord.id
              ++ (planLoop rest live (cf.id :: processed)).updates.map (fun ud => ud.1.id)))
          exact List.perm_middle
        constructor
        · rw [hperm.nodup_iff]
          exact List.nodup_cons.mpr ⟨hnotmem, ihn⟩
        · intro i hi
          have hi' := hperm.mem_iff.mp hi
          rcases List.mem_cons.mp hi' with rfl | hi'
          · exact hnp
          · exact contains_tail_eq_false (ihp i hi')

/-- C8: within one run, matching walks the desired entries in document
order and a live record claimed (matched unchanged or updated) by an
earlier desired entry is skipped for all later entries — the claimed
provider ids of a plan are pairwise distinct, so every live record is
claimed at most once. -/
theorem C8_theorem (ds : List DesiredRecord) (live : List LiveRecord) :
    (claimedIds (planLoop ds live [])).Nodup :=
  (claimedIds_spec ds live []).1

/-! ## Claim C9: absent proxied is treated as false on both sides -/

/-- C9: when the desired record carries no `proxied` field and the live
record's `proxied` is absent or false, a content match is a full match:
the pair is classified unchanged (no provider call), both in the inline
loop of `main` and in the `record_matches` helper. -/
theorem C9_theorem (cf : LiveRecord) (d : DesiredRecord)
    (hd : d.proxied = none) (hl : cf.proxied = none ∨ cf.proxied = some false)
    (hc : contentMatches cf d = true) :
    proxyMatches cf d = true ∧ planLoop [d] [cf] [] = ⟨[cf], [], [], []⟩ := by
  have hpd : proxiedDefault cf.proxied = proxiedDefault d.proxied := by
    rcases hl with h | h
    · rw [h, hd]
    · rw [h, hd]
      rfl
  have hp : proxyMatches cf d = true := by
    unfold proxyMatches
    split
    · rw [hpd]
      exact beq_self_eq_true _
    · rfl
  refine ⟨hp, ?_⟩
  have h := C2_amended_theorem cf d hc
  rwa [if_pos hp] at h

def c9d : DesiredRecord := ⟨"A", "w.example.com", "9.9.9.9", 1, none, none⟩
def c9l : LiveRecord := ⟨6, "A", "w.example.com", "9.9.9.9", 1, none, some false⟩

/-- Witness for `C9_theorem`: desired A record without `proxied` against
a live record with `proxied = false`. -/
theorem C9_witness :
    proxyMatches c9l c9d = true ∧ planLoop [c9d] [c9l] [] = ⟨[c9l], [], [], []⟩ :=
  C9_theorem c9l c9d rfl (Or.inr rfl) rfl

/-! ## The per-zone run (lines 262-370)

`main` groups the fetched zone records by name (`cf_records_by_name`),
then walks `records_to_manage` (insertion-ordered, one entry per request
file name) running the matching loop on that name's live slice, and
finally (step 3) deletes every live record whose name lies strictly under
the parent domain (`endswith("." + parent)`) and has no request file
(`files` holds the full names owning a `<name>.json` file). -/

def liveAt (live : List LiveRecord) (n : String) : List LiveRecord :=
  live.filter (fun cf => cf.name == n)

def cleanupCond (files : List String) (parent : String) (cf : LiveRecord) : Bool :=
  endswith cf.name ("." ++ parent) && !files.contains cf.name

structure ZonePlan where
  plans : List (String × Plan)
  cleanup : List LiveRecord
deriving Repr, DecidableEq

def zonePlan (desired : List (String × List DesiredRecord)) (files : List String)
    (parent : String) (live : List LiveRecord) : ZonePlan :=
  { plans := desired.map (fun nd => (nd.1, planLoop nd.2 (liveAt live nd.1) [])),
    cleanup := live.filter (cleanupCond files parent) }

/-- Zone state after a fully successful run: each name's slice is
replaced by the applied per-name plan (fresh create ids spaced by the
desired-list length), and of the remaining records only those survive
that are neither at a managed name nor hit by the step-3 cleanup. -/
def zoneApply (desired : List (String × List DesiredRecord))
    (live : List LiveRecord) (base : Nat) : List LiveRecord :=
  match desired with
  | [] => []
  | nd :: rest =>
      applyPlan (liveAt live nd.1) (planLoop nd.2 (liveAt live nd.1) []) base
        ++ zoneApply rest live (base + nd.2.length)

def untouchedKeep (desired : List (String × List DesiredRecord))
    (files : List String) (parent : String) (cf : LiveRecord) : Bool :=
  !(desired.any (fun nd => nd.1 == cf.name)) && !cleanupCond files parent cf

def zoneAfter (desired : List (String × List DesiredRecord)) (files : List String)
    (parent : String) (live : List LiveRecord) (base : Nat) : List LiveRecord :=
  zoneApply desired live base ++ live.filter (untouchedKeep desired files parent)

/-! ## Where plan components come from -/

theorem planLoop_creates_mem (ds : List DesiredRecord) :
    ∀ (live : List LiveRecord) (processed : List Nat) (c : DesiredRecord),
      c ∈ (planLoop ds live processed).creates → c ∈ ds := by
  induction ds with
  | nil =>
    intro live processed c hc
    rw [planLoop_nil] at hc
    cases hc
  | cons d rest ih =>
    intro live processed c hc
    cases hf : findContentMatch live processed d with
    | none =>
      rw [planLoop_cons_none rest hf] at hc
      rcases List.mem_cons.mp hc with rfl | hc
      · exact List.mem_cons_self _ _
      · exact List.mem_cons_of_mem _ (ih live processed c hc)
    | some cf =>
      cases hp : proxyMatches cf d with
      | true =>
        rw [planLoop_cons_proxy rest hf hp] at hc
        exact List.mem_cons_of_mem _ (ih live (cf.id :: processed) c hc)
      | false =>
        rw [planLoop_cons_noproxy rest hf hp] at hc
        exact List.mem_cons_of_mem _ (ih live (cf.id :: processed) c hc)

theorem planLoop_updates_snd_mem (ds : List DesiredRecord) :
    ∀ (live : List LiveRecord) (processed : List Nat)
      (ud : LiveRecord × DesiredRecord),
      ud ∈ (planLoop ds live processed).updates → ud.2 ∈ ds := by
  induction ds with
  | nil =>
    intro live processed ud h
    rw [planLoop_nil] at h
    cases h
  | cons d rest ih =>
    intro live processed ud h
    cases hf : findContentMatch live processed d with
    | none =>
      rw [planLoop_cons_none rest hf] at h
      exact List.mem_cons_of_mem _ (ih live processed ud h)
    | some cf =>
      cases hp : proxyMatches cf d with
      | true =>
        rw [planLoop_cons_proxy rest hf hp] at h
        exact List.mem_cons_of_mem _ (ih live (cf.id :: processed) ud h)
      | false =>
        rw [planLoop_cons_noproxy rest hf hp] at h
        rcases List.mem_cons.mp h with rfl | h
        · exact List.mem_cons_self _ _
        · exact List.mem_cons_of_mem _ (ih live (cf.id :: processed) ud h)

theorem updMap_some_shape {p : Plan} {cf y : LiveRecord}
    (h : updMap p cf = some y) :
    y = cf ∨ ∃ ud ∈ p.updates, y = toLive ud.2 cf.id := by
  unfold updMap at h
  by_cases hc : (p.unchanged.any (fun u => u.id == cf.id)) = true
  · rw [if_pos hc] at h
    injection h with h
    exact Or.inl h.symm
  · rw [if_neg hc] at h
    cases hm : p.updates.find? (fun ud => ud.1.id == cf.id) with
    | none => rw [hm] at h; cases h
    | some ud =>
      rw [hm] at h
      injection h with h
      exact Or.inr ⟨ud, List.mem_of_find?_eq_some hm, h.symm⟩

theorem withFresh_mem_shape {cs : List DesiredRecord} :
    ∀ {b : Nat} {y : LiveRecord}, y ∈ withFresh cs b →
      ∃ c ∈ cs, ∃ i, y = toLive c i := by
  induction cs with
  | nil => intro b y hy; cases hy
  | cons c rest ih =>
    intro b y hy
    rcases List.mem_cons.mp hy with rfl | hy
    · exact ⟨c, List.mem_cons_self _ _, b, rfl⟩
    · obtain ⟨c', hc', i, hi⟩ := ih hy
      exact ⟨c', List.mem_cons_of_mem _ hc', i, hi⟩

theorem applyPlan_names {n : String} {ds : List DesiredRecord}
    {live : List LiveRecord} {base : Nat}
    (hlive : ∀ l ∈ live, l.name = n) (hds : ∀ d ∈ ds, d.name = n) :
    ∀ y ∈ applyPlan live (planLoop ds live []) base, y.name = n := by
  intro y hy
  rcases List.mem_append.mp hy with hy | hy
  · obtain ⟨l, hl, hfl⟩ := List.mem_filterMap.mp hy
    rcases updMap_some_shape hfl with heq | ⟨ud, hud, heq⟩
    · rw [heq]
      exact hlive l hl
    · rw [heq]
      exact hds ud.2 (planLoop_updates_snd_mem ds live [] ud hud)
  · obtain ⟨c, hc, i, heq⟩ := withFresh_mem_shape hy
    rw [heq]
    exact hds c (planLoop_creates_mem ds live [] c hc)

/-! ## Facts about `liveAt` -/

theorem liveAt_append (l1 l2 : List LiveRecord) (n : String) :
    liveAt (l1 ++ l2) n = liveAt l1 n ++ liveAt l2 n :=
  List.filter_append l1 l2

theorem liveAt_eq_self {l : List LiveRecord} {n : String}
    (h : ∀ x ∈ l, x.name = n) : liveAt l n = l :=
  List.filter_eq_self.mpr (fun a ha => beq_iff_eq.mpr (h a ha))

theorem liveAt_eq_nil {l : List LiveRecord} {n : String}
    (h : ∀ x ∈ l, x.name ≠ n) : liveAt l n = [] :=
  List.filter_eq_nil_iff.mpr (fun a ha hb => h a ha (beq_iff_eq.mp hb))

theorem liveAt_mem {l : List LiveRecord} {n : String} {x : LiveRecord}
    (h : x ∈ liveAt l n) : x ∈ l ∧ x.name = n := by
  have := List.mem_filter.mp h
  exact ⟨this.1, beq_iff_eq.mp this.2⟩

theorem zoneApply_names (desired : List (String × List DesiredRecord))
    (hnames : ∀ nd ∈ desired, ∀ d ∈ nd.2, d.name = nd.1) :
    ∀ (live : List LiveRecord) (base : Nat) (y : LiveRecord),
      y ∈ zoneApply desired live base → ∃ nd ∈ desired, y.name = nd.1 := by
  induction desired with
  | nil => intro live base y hy; cases hy
  | cons nd rest ih =>
    intro live base y hy
    rcases List.mem_append.mp hy with hy | hy
    · refine ⟨nd, List.mem_cons_self _ _, ?_⟩
      exact applyPlan_names (fun l hl => (liveAt_mem hl).2)
        (hnames nd (List.mem_cons_self _ _)) y hy
    · obtain ⟨nd', hnd', hname⟩ := ih
        (fun x hx => hnames x (List.mem_cons_of_mem _ hx)) live
        (base + nd.2.length) y hy
      exact ⟨nd', List.mem_cons_of_mem _ hnd', hname⟩

theorem liveAt_untouched_shrink {n : String} {ds : List DesiredRecord}
    {rest : List (String × List DesiredRecord)} {files : List String}
    {parent : String} {live : List LiveRecord} {m : String} (hmn : m ≠ n) :
    liveAt (live.filter (untouchedKeep ((n, ds) :: rest) files parent)) m
      = liveAt (live.filter (untouchedKeep rest files parent)) m := by
  unfold liveAt
  rw [List.filter_filter, List.filter_filter]
  apply List.filter_congr
  intro x _
  cases hx : (x.name == m) with
  | false => simp [hx]
  | true =>
    have hxn : (n == x.name) = false := by
      apply beq_eq_false_iff_ne.mpr
      intro h
      exact hmn (by rw [← beq_iff_eq.mp hx, ← h])
    unfold untouchedKeep
    simp [List.any_cons, hx, hxn]

def ZoneIdem (desired : List (String × List DesiredRecord)) (files : List String)
    (parent : String) (live : List LiveRecord) (base : Nat) : Prop :=
  (∀ np ∈ (zonePlan desired files parent
      (zoneAfter desired files parent live base)).plans,
      np.2.updates = [] ∧ np.2.creates = [] ∧ np.2.deletes = [])
  ∧ ((zonePlan desired files parent
      (zoneAfter desired files parent live base)).plans.map
        (fun np => np.2.unchanged.length)).sum
      = (desired.map (fun nd => nd.2.length)).sum
  ∧ (zonePlan desired files parent
      (zoneAfter desired files parent live base)).cleanup = []

theorem zone_idem (files : List String) (parent : String)
    (desired : List (String × List DesiredRecord)) :
    ∀ (live : List LiveRecord) (base : Nat),
      (desired.map Prod.fst).Nodup →
      (∀ nd ∈ desired, ∀ d ∈ nd.2, d.name = nd.1) →
      (∀ nd ∈ desired, files.contains nd.1 = true) →
      (live.map LiveRecord.id).Nodup →
      (∀ cf ∈ live, cf.id < base) →
      ZoneIdem desired files parent live base := by
  induction desired with
  | nil =>
    intro live base _ _ _ _ _
    refine ⟨?_, rfl, ?_⟩
    · intro np hnp
      exact absurd hnp (List.not_mem_nil np)
    · show (zoneAfter [] files parent live base).filter (cleanupCond files parent) = []
      show (([] : List LiveRecord)
          ++ live.filter (untouchedKeep [] files parent)).filter
          (cleanupCond files parent) = []
      rw [List.nil_append, List.filter_filter]
      apply List.filter_eq_nil_iff.mpr
      intro a _
      cases hcc : cleanupCond files parent a with
      | false => simp [untouchedKeep, hcc]
      | true => simp [untouchedKeep, hcc]
  | cons nd rest ih =>
    intro live base hkeys hnames hfiles hnd hlt
    obtain ⟨n, ds⟩ := nd
    have hkeys_tail : (rest.map Prod.fst).Nodup := (List.nodup_cons.mp hkeys).2
    have hn_not : n ∉ rest.map Prod.fst := (List.nodup_cons.mp hkeys).1
    have hnames_head : ∀ d ∈ ds, d.name = n :=
      hnames (n, ds) (List.mem_cons_self _ _)
    have hnames_tail : ∀ nd' ∈ rest, ∀ d ∈ nd'.2, d.name = nd'.1 :=
      fun nd' h => hnames nd' (List.mem_cons_of_mem _ h)
    have hfiles_tail : ∀ nd' ∈ rest, files.contains nd'.1 = true :=
      fun nd' h => hfiles nd' (List.mem_cons_of_mem _ h)
    have hndAt : ((liveAt live n).map LiveRecord.id).Nodup :=
      ((List.filter_sublist live).map LiveRecord.id).nodup hnd
    have hltAt : ∀ cf ∈ liveAt live n, cf.id < base :=
      fun cf hcf => hlt cf (liveAt_mem hcf).1
    have hidem := planLoop_idempotent ds (liveAt live n) base hndAt hltAt
    unfold IdemGoal at hidem
    obtain ⟨hu1, hu2, hu3, hu4⟩ := hidem
    have hsegnames : ∀ y ∈ applyPlan (liveAt live n)
        (planLoop ds (liveAt live n) []) base, y.name = n :=
      applyPlan_names (fun l hl => (liveAt_mem hl).2) hnames_head
    have htailnames : ∀ y ∈ zoneApply rest live (base + ds.length),
        y.name ≠ n := by
      intro y hy heq
      obtain ⟨nd', hnd', hname⟩ :=
        zoneApply_names rest hnames_tail live (base + ds.length) y hy
      apply hn_not
      rw [← heq, hname]
      exact List.mem_map_of_mem Prod.fst hnd'
    have huntnames : ∀ y ∈ live.filter (untouchedKeep ((n, ds) :: rest) files parent),
        y.name ≠ n := by
      intro y hy heq
      have h := (List.mem_filter.mp hy).2
      unfold untouchedKeep at h
      rw [Bool.and_eq_true] at h
      have h1 := h.1
      rw [Bool.not_eq_true', List.any_cons] at h1
      obtain ⟨h2, -⟩ := Bool.or_eq_false_iff.mp h1
      exact beq_eq_false_iff_ne.mp h2 heq.symm
    have hslice : liveAt (zoneAfter ((n, ds) :: rest) files parent live base) n
        = applyPlan (liveAt live n) (planLoop ds (liveAt live n) []) base := by
      have e1 : liveAt (zoneAfter ((n, ds) :: rest) files parent live base) n
          = liveAt (zoneApply ((n, ds) :: rest) live base) n
            ++ liveAt (live.filter (untouchedKeep ((n, ds) :: rest) files parent)) n :=
        liveAt_append _ _ _
      have e2 : liveAt (zoneApply ((n, ds) :: rest) live base) n
          = liveAt (applyPlan (liveAt live n) (planLoop ds (liveAt live n) []) base) n
            ++ liveAt (zoneApply rest live (base + ds.length)) n :=
        liveAt_append _ _ _
      rw [e1, e2, liveAt_eq_self hsegnames, liveAt_eq_nil htailnames,
        liveAt_eq_nil huntnames, List.append_nil, List.append_nil]
    have hslicetail : ∀ nd' ∈ rest,
        liveAt (zoneAfter ((n, ds) :: rest) files parent live base) nd'.1
          = liveAt (zoneAfter rest files parent live (base + ds.length)) nd'.1 := by
      intro nd' hnd'
      have hne : nd'.1 ≠ n := by
        intro h
        exact hn_not (h ▸ List.mem_map_of_mem Prod.fst hnd')
      have hsegne : ∀ y ∈ applyPlan (liveAt live n)
          (planLoop ds (liveAt live n) []) base, y.name ≠ nd'.1 := by
        intro y hy h
        apply hne
        rw [← h]
        exact hsegnames y hy
      have e1 : liveAt (zoneAfter ((n, ds) :: rest) files parent live base) nd'.1
          = liveAt (zoneApply ((n, ds) :: rest) live base) nd'.1
            ++ liveAt (live.filter (untouchedKeep ((n, ds) :: rest) files parent)) nd'.1 :=
        liveAt_append _ _ _
      have e2 : liveAt (zoneApply ((n, ds) :: rest) live base) nd'.1
          = liveAt (applyPlan (liveAt live n) (planLoop ds (liveAt live n) []) base) nd'.1
            ++ liveAt (zoneApply rest live (base + ds.length)) nd'.1 :=
        liveAt_append _ _ _
      have e3 : liveAt (zoneAfter rest files parent live (base + ds.length)) nd'.1
          = liveAt (zoneApply rest live (base + ds.length)) nd'.1
            ++ liveAt (live.filter (untouchedKeep rest files parent)) nd'.1 :=
        liveAt_append _ _ _
      rw [e1, e2, e3, liveAt_eq_nil hsegne, liveAt_untouched_shrink hne,
        List.nil_append]
    have hplans : (zonePlan ((n, ds) :: rest) files parent
        (zoneAfter ((n, ds) :: rest) files parent live base)).plans
        = (n, planLoop ds (applyPlan (liveAt live n)
            (planLoop ds (liveAt live n) []) base) [])
          :: (zonePlan rest files parent
              (zoneAfter rest files parent live (base + ds.length))).plans := by
      show ((n, ds) :: rest).map (fun nd' => (nd'.1, planLoop nd'.2
          (liveAt (zoneAfter ((n, ds) :: rest) files parent live base) nd'.1) []))
        = _
      rw [List.map_cons]
      congr 1
      · rw [hslice]
      · apply List.map_congr_left
        intro nd' hnd'
        rw [hslicetail nd' hnd']
    obtain ⟨iha, ihb, ihc⟩ := ih live (base + ds.length) hkeys_tail hnames_tail
      hfiles_tail hnd
      (fun cf hcf => Nat.lt_of_lt_of_le (hlt cf hcf) (Nat.le_add_right base ds.length))
    refine ⟨?_, ?_, ?_⟩
    · intro np hnp
      rw [hplans] at hnp
      rcases List.mem_cons.mp hnp with rfl | hnp
      · exact ⟨hu1, hu2, hu3⟩
      · exact iha np hnp
    · rw [hplans, List.map_cons, List.sum_cons]
      show (planLoop ds (applyPlan (liveAt live n)
          (planLoop ds (liveAt live n) []) base) []).unchanged.length
          + ((zonePlan rest files parent
              (zoneAfter rest files parent live (base + ds.length))).plans.map
            (fun np => np.2.unchanged.length)).sum
        = (((n, ds) :: rest).map (fun nd' => nd'.2.length)).sum
      rw [hu4, ihb, List.map_cons, List.sum_cons]
    · show (zoneAfter ((n, ds) :: rest) files parent live base).filter
          (cleanupCond files parent) = []
      apply List.filter_eq_nil_iff.mpr
      intro a ha hc
      rcases List.mem_append.mp ha with ha | ha
      · obtain ⟨nd', hnd', hname⟩ :=
          zoneApply_names ((n, ds) :: rest) hnames live base a ha
        unfold cleanupCond at hc
        rw [Bool.and_eq_true] at hc
        have h2 := hc.2
        rw [Bool.not_eq_true', hname, hfiles nd' hnd'] at h2
        simp at h2
      · have h := (List.mem_filter.mp ha).2
        unfold untouchedKeep at h
        rw [Bool.and_eq_true] at h
        have h2 := h.2
        rw [Bool.not_eq_true', hc] at h2
        simp at h2

/-! ## Provider-call traces of one run

The interleaved execution of `main` (lines 285-370) with a success oracle
`o` deciding each provider call in order: the matching loop issues
updates and creates as it walks the desired records (a failed update
leaves the live id unclaimed), then the stale deletes of each name, then
the step-3 cleanup deletes.  Events record the call and its outcome. -/

inductive Ev where
  | create (d : DesiredRecord) (ok : Bool)
  | update (id : Nat) (d : DesiredRecord) (ok : Bool)
  | delete (id : Nat) (rname : String) (ok : Bool)
deriving Repr, DecidableEq

def nameLoopEvents (o : Nat → Bool) :
    List DesiredRecord → List LiveRecord → List Nat → Nat →
      List Ev × List Nat × Nat
  | [], _, processed, k => ([], processed, k)
  | d :: ds, live, processed, k =>
    match findContentMatch live processed d with
    | some cf =>
      if proxyMatches cf d then
        nameLoopEvents o ds live (cf.id :: processed) k
      else
        let ok := o k
        let r := nameLoopEvents o ds live
          (if ok then cf.id :: processed else processed) (k + 1)
        (Ev.update cf.id d ok :: r.1, r.2)
    | none =>
      let ok := o k
      let r := nameLoopEvents o ds live processed (k + 1)
      (Ev.create d ok :: r.1, r.2)

def deleteEvents (o : Nat → Bool) : List LiveRecord → Nat → List Ev × Nat
  | [], k => ([], k)
  | cf :: rest, k =>
    let r := deleteEvents o rest (k + 1)
    (Ev.delete cf.id cf.name (o k) :: r.1, r.2)

/-- One `full_domain_name`'s sync: matching loop, then deletion of the
live records at that name never claimed. -/
def nameSyncEvents (o : Nat → Bool) (ds : List DesiredRecord)
    (live : List LiveRecord) (k : Nat) : List Ev × Nat :=
  let r := nameLoopEvents o ds live [] k
  let s := deleteEvents o (live.filter (fun cf => !r.2.1.contains cf.id)) r.2.2
  (r.1 ++ s.1, s.2)

def zoneLoopEvents (o : Nat → Bool) :
    List (String × List DesiredRecord) → List LiveRecord → Nat → List Ev × Nat
  | [], _, k => ([], k)
  | nd :: rest, live, k =>
    let r := nameSyncEvents o nd.2 (liveAt live nd.1) k
    let s := zoneLoopEvents o rest live r.2
    (r.1 ++ s.1, s.2)

def step3Events (o : Nat → Bool) (files : List String) (parent : String)
    (live : List LiveRecord) (k : Nat) : List Ev × Nat :=
  deleteEvents o (live.filter (cleanupCond files parent)) k

def zoneRunEvents (o : Nat → Bool) (desired : List (String × List DesiredRecord))
    (files : List String) (parent : String) (live : List LiveRecord) : List Ev :=
  let r := zoneLoopEvents o desired live 0
  r.1 ++ (step3Events o files parent live r.2).1

/-! ## Claim C7: the create/update-before-delete barrier -/

def isCU : Ev → Bool
  | Ev.create _ _ => true
  | Ev.update _ _ _ => true
  | Ev.delete _ _ _ => false

/-- "All creates/updates complete before any delete begins" for a trace:
the trace equals its create/update part followed by its delete part. -/
def cuBeforeDeletes (t : List Ev) : Bool :=
  t == t.filter isCU ++ t.filter (fun e => !isCU e)

theorem nameLoopEvents_all_cu (o : Nat → Bool) (ds : List DesiredRecord) :
    ∀ (live : List LiveRecord) (processed : List Nat) (k : Nat),
      ∀ e ∈ (nameLoopEvents o ds live processed k).1, isCU e = true := by
  induction ds with
  | nil => intro live processed k e he; cases he
  | cons d rest ih =>
    intro live processed k e he
    rw [nameLoopEvents] at he
    rcases hf : findContentMatch live processed d with - | cf <;> rw [hf] at he
    · rcases List.mem_cons.mp he with rfl | he
      · rfl
      · exact ih live processed (k + 1) e he
    · dsimp only at he
      by_cases hp : proxyMatches cf d = true
      · rw [if_pos hp] at he
        exact ih live (cf.id :: processed) k e he
      · rw [if_neg hp] at he
        rcases List.mem_cons.mp he with rfl | he
        · rfl
        · exact ih live _ (k + 1) e he

theorem deleteEvents_all_del (o : Nat → Bool) (l : List LiveRecord) :
    ∀ (k : Nat), ∀ e ∈ (deleteEvents o l k).1, isCU e = false := by
  induction l with
  | nil => intro k e he; cases he
  | cons cf rest ih =>
    intro k e he
    rw [deleteEvents] at he
    rcases List.mem_cons.mp he with rfl | he
    · rfl
    · exact ih (k + 1) e he

theorem cuBeforeDeletes_of_split {t1 t2 : List Ev}
    (h1 : ∀ e ∈ t1, isCU e = true) (h2 : ∀ e ∈ t2, isCU e = false) :
    cuBeforeDeletes (t1 ++ t2) = true := by
  unfold cuBeforeDeletes
  rw [List.filter_append, List.filter_append]
  rw [List.filter_eq_self.mpr h1,
    List.filter_eq_nil_iff.mpr (fun a ha => by simp [h2 a ha]),
    List.filter_eq_nil_iff.mpr (fun a ha => by simp [h1 a ha]),
    List.filter_eq_self.mpr (fun a ha => by simp [h2 a ha]),
    List.append_nil, List.nil_append]
  exact beq_self_eq_true _

/-- C7 amended: the barrier holds within each full domain name — that
name's creates and updates all precede that name's stale deletes — and
the step-3 cleanup issues only deletes (after all per-name segments).
Across names no barrier holds (see the counterexample). -/
theorem C7_amended_theorem :
    (∀ (o : Nat → Bool) (ds : List DesiredRecord) (live : List LiveRecord) (k : Nat),
      cuBeforeDeletes (nameSyncEvents o ds live k).1 = true)
    ∧ (∀ (o : Nat → Bool) (files : List String) (parent : String)
        (live : List LiveRecord) (k : Nat),
      (step3Events o files parent live k).1.all (fun e => !isCU e) = true) := by
  constructor
  · intro o ds live k
    exact cuBeforeDeletes_of_split (nameLoopEvents_all_cu o ds live [] k)
      (deleteEvents_all_del o _ _)
  · intro o files parent live k
    apply List.all_eq_true.mpr
    intro e he
    rw [deleteEvents_all_del o _ _ e he]
    rfl

def c7dA : DesiredRecord := ⟨"A", "a.example.com", "1.2.3.4", 1, none, none⟩
def c7dB : DesiredRecord := ⟨"A", "b.example.com", "5.6.7.8", 1, none, none⟩
def c7desired : List (String × List DesiredRecord) :=
  [("a.example.com", [c7dA]), ("b.example.com", [c7dB])]
def c7live : List LiveRecord := [⟨1, "TXT", "a.example.com", "old", 1, none, none⟩]
def c7files : List String := ["a.example.com", "b.example.com"]

/-- C7 counterexample: with two managed names where the first has a stale
live TXT record, the run deletes that record before issuing the second
name's create — a delete is issued while a create of the plan is still
pending, so the claimed global barrier is false. -/
theorem C7_counterexample :
    zoneRunEvents (fun _ => true) c7desired c7files "example.com" c7live
      = [Ev.create c7dA true, Ev.delete 1 "a.example.com" true,
         Ev.create c7dB true]
    ∧ cuBeforeDeletes (zoneRunEvents (fun _ => true) c7desired c7files
        "example.com" c7live) = false := by
  constructor
  · rfl
  · rfl

/-! ## Claim C10: the parent apex is never deleted -/

theorem append_dot_ne_parent (s parent : String) :
    s ++ "." ++ parent ≠ parent := by
  intro h
  have hd := congrArg String.data h
  rw [String.data_append, String.data_append] at hd
  have hlen := congrArg List.length hd
  rw [List.length_append, List.length_append] at hlen
  have hdot : (("." : String)).data.length = 1 := rfl
  rw [hdot] at hlen
  omega

theorem endswith_dot_ne_parent {nm parent : String}
    (h : endswith nm ("." ++ parent) = true) : nm ≠ parent := by
  intro heq
  unfold endswith at h
  have hsuf : ("." ++ parent).data <:+ nm.data := of_decide_eq_true h
  have hlen := List.IsSuffix.length_le hsuf
  rw [String.data_append, List.length_append] at hlen
  have hdot : (("." : String)).data.length = 1 := rfl
  rw [hdot, heq] at hlen
  omega

theorem deleteEvents_mem_src (o : Nat → Bool) (l : List LiveRecord) :
    ∀ (k : Nat) {i : Nat} {rn : String} {ok : Bool},
      Ev.delete i rn ok ∈ (deleteEvents o l k).1 → ∃ cf ∈ l, rn = cf.name := by
  induction l with
  | nil => intro k i rn ok h; cases h
  | cons cf rest ih =>
    intro k i rn ok h
    rw [deleteEvents] at h
    dsimp only at h
    rcases List.mem_cons.mp h with heq | h
    · injection heq with h1 h2 h3
      exact ⟨cf, List.mem_cons_self _ _, h2⟩
    · obtain ⟨cf', hcf', hrn⟩ := ih (k + 1) h
      exact ⟨cf', List.mem_cons_of_mem _ hcf', hrn⟩

theorem zoneLoopEvents_delete_name (o : Nat → Bool)
    (desired : List (String × List DesiredRecord)) :
    ∀ (live : List LiveRecord) (k : Nat) {i : Nat} {rn : String} {ok : Bool},
      Ev.delete i rn ok ∈ (zoneLoopEvents o desired live k).1 →
      ∃ nd ∈ desired, rn = nd.1 := by
  induction desired with
  | nil => intro live k i rn ok h; cases h
  | cons nd rest ih =>
    intro live k i rn ok h
    rw [zoneLoopEvents] at h
    dsimp only at h
    rcases List.mem_append.mp h with h | h
    · unfold nameSyncEvents at h
      dsimp only at h
      rcases List.mem_append.mp h with h | h
      · have hcu := nameLoopEvents_all_cu o nd.2 (liveAt live nd.1) [] k _ h
        cases hcu
      · obtain ⟨cf, hcf, hrn⟩ := deleteEvents_mem_src o _ _ h
        have hname := (liveAt_mem (List.mem_of_mem_filter hcf)).2
        exact ⟨nd, List.mem_cons_self _ _, by rw [hrn, hname]⟩
    · obtain ⟨nd', hnd', hrn⟩ := ih live _ h
      exact ⟨nd', List.mem_cons_of_mem _ hnd', hrn⟩

/-- C10: the per-name stale deletion only ever targets records at a
managed full name (a strict subdomain `sub.parent`), and the step-3
cleanup requires the name to end with `"." + parent`; hence no delete
call of a run is ever issued for a record whose name equals the parent
domain apex. -/
theorem C10_theorem (o : Nat → Bool)
    (desired : List (String × List DesiredRecord)) (files : List String)
    (parent : String) (live : List LiveRecord)
    (hkeys : ∀ nd ∈ desired, ∃ s, nd.1 = s ++ "." ++ parent) :
    ∀ (i : Nat) (ok : Bool),
      Ev.delete i parent ok ∉ zoneRunEvents o desired files parent live := by
  intro i ok h
  unfold zoneRunEvents at h
  dsimp only at h
  rcases List.mem_append.mp h with h | h
  · obtain ⟨nd, hnd, hrn⟩ := zoneLoopEvents_delete_name o desired live 0 h
    obtain ⟨s, hs⟩ := hkeys nd hnd
    exact append_dot_ne_parent s parent (by rw [← hs]; exact hrn.symm)
  · unfold step3Events at h
    obtain ⟨cf, hcf, hrn⟩ := deleteEvents_mem_src o _ _ h
    have hcond := (List.mem_filter.mp hcf).2
    unfold cleanupCond at hcond
    rw [Bool.and_eq_true] at hcond
    exact endswith_dot_ne_parent hcond.1 hrn.symm

/-- Witness for `C10_theorem` at the concrete two-name zone. -/
theorem C10_witness :
    Ev.delete 1 "example.com" true ∉
      zoneRunEvents (fun _ => true) c7desired c7files "example.com" c7live :=
  C10_theorem (fun _ => true) c7desired c7files "example.com" c7live
    (by
      intro nd hnd
      rcases List.mem_cons.mp hnd with rfl | h
      · exact ⟨"a", by decide⟩
      · rcases List.mem_cons.mp h with rfl | h
        · exact ⟨"b", by decide⟩
        · cases h) 1 true

/-! ## Claim C1: idempotence of the whole per-zone run -/

/-- C1: for every desired record set (keyed by distinct managed full
names whose request files exist, records carrying their name) and every
live record set (distinct provider ids), applying the computed
reconciliation plan once with all provider calls succeeding and
recomputing the plan against the resulting live state yields an empty
plan: every per-name plan has zero updates, creates and deletes, the
total number of unchanged classifications equals the number of desired
records, and the step-3 cleanup is empty. -/
theorem C1_theorem (desired : List (String × List DesiredRecord))
    (files : List String) (parent : String) (live : List LiveRecord) (base : Nat)
    (hkeys : (desired.map Prod.fst).Nodup)
    (hnames : ∀ nd ∈ desired, ∀ d ∈ nd.2, d.name = nd.1)
    (hfiles : ∀ nd ∈ desired, files.contains nd.1 = true)
    (hnd : (live.map LiveRecord.id).Nodup)
    (hlt : ∀ cf ∈ live, cf.id < base) :
    ZoneIdem desired files parent live base :=
  zone_idem files parent desired live base hkeys hnames hfiles hnd hlt

def c1d : DesiredRecord := ⟨"A", "a.example.com", "1.2.3.4", 1, none, none⟩
def c1desired : List (String × List DesiredRecord) := [("a.example.com", [c1d])]
def c1live : List LiveRecord :=
  [⟨1, "TXT", "old.example.com", "x", 1, none, none⟩,
   ⟨2, "A", "a.example.com", "9.9.9.9", 1, none, none⟩]
def c1files : List String := ["a.example.com"]

/-- Witness for `C1_theorem` at a concrete zone with one managed name
and one orphaned live record. -/
theorem C1_witness : ZoneIdem c1desired c1files "example.com" c1live 10 :=
  C1_theorem c1desired c1files "example.com" c1live 10
    (by decide) (by decide) (by decide) (by decide) (by decide)

/-! ## Claim C5: the desired-state compiler and disabled zones

`get_zone_id` (lines 42-57) finds the first domains-config entry with
the given name; a disabled entry yields a warning and `None`, a missing
or placeholder `zoneId` an error and `None`, an absent entry an error
and `None`.  Step 1 of `main` (lines 195-256) then simply `continue`s on
`None`: the document contributes nothing, and a zone with no entry in
`desired_state` is never visited by the sync loop at all. -/

structure DomainEntry where
  name : String
  enabled : Bool
  zoneId : Option String
deriving Repr, DecidableEq

def get_zone_id (domain : String) (entries : List DomainEntry) : Option String :=
  match entries.find? (fun e => e.name == domain) with
  | some e =>
    if !e.enabled then none
    else
      match e.zoneId with
      | none => none
      | some z =>
        if z == "" || startswith z "YOUR_CLOUDFLARE_ZONE_ID" then none
        else some z
  | none => none

/-- A request file: its name without the `.json` suffix, whether the
document has an `owner` key, and its record entries (`none` when the
JSON is invalid or the `records` key is missing).  Record entries
missing `type` or `value` are skipped by `main` before compilation, so
the list holds only the complete entries. -/
structure RequestDoc where
  base : String
  hasOwner : Bool
  records : Option (List RawRecord)
deriving Repr, DecidableEq

/-- Python `str.split('.')` on the character list. -/
def splitDotAux : List Char → List (List Char)
  | [] => [[]]
  | c :: cs =>
    let r := splitDotAux cs
    if c == '.' then [] :: r
    else
      match r with
      | [] => [[c]]
      | g :: rest => (c :: g) :: rest

def splitOnDot (s : String) : List String := (splitDotAux s.data).map String.mk

/-- Python `'.'.join(parts)`. -/
def joinDots : List String → String
  | [] => ""
  | [s] => s
  | s :: rest => s ++ "." ++ joinDots rest

/-- `filename[:-5].split('.')` with the `len < 2` guard: the subdomain
label and the parent domain. -/
def parseBase (base : String) : Option (String × String) :=
  match splitOnDot base with
  | [] => none
  | [_] => none
  | s :: rest => some (s, joinDots rest)

/-- Python `str.upper()` on the character list (the record types are
ASCII identifiers). -/
def pyUpper (s : String) : String := String.mk (s.data.map Char.toUpper)

/-- The `cf_api_record` dict built from one record entry (lines
233-252): `type` upper-cased, `name` always the full domain name, ttl
defaulting to 1, `priority` kept only for MX, `proxied` kept only for
A/AAAA/CNAME. -/
def compileRecord (full : String) (r : RawRecord) : DesiredRecord :=
  let t := pyUpper r.rtype
  { rtype := t, name := full, content := r.value, ttl := r.ttl.getD 1,
    priority := if t == "MX" then r.priority else none,
    proxied := if t == "A" || t == "AAAA" || t == "CNAME" then r.proxied else none }

structure ZoneData where
  domainName : String
  byName : List (String × List DesiredRecord)
deriving Repr, DecidableEq

def insertByName (bn : List (String × List DesiredRecord)) (full : String)
    (recs : List DesiredRecord) : List (String × List DesiredRecord) :=
  if bn.any (fun p => p.1 == full) then
    bn.map (fun p => if p.1 == full then (p.1, p.2 ++ recs) else p)
  else bn ++ [(full, recs)]

def insertZone (state : List (String × ZoneData)) (zid parentName full : String)
    (recs : List DesiredRecord) : List (String × ZoneData) :=
  if state.any (fun p => p.1 == zid) then
    state.map (fun p =>
      if p.1 == zid then
        (p.1, ⟨p.2.domainName, insertByName p.2.byName full recs⟩)
      else p)
  else state ++ [(zid, ⟨parentName, [(full, recs)]⟩)]

def compileStep (entries : List DomainEntry)
    (state : List (String × ZoneData)) (doc : RequestDoc) :
    List (String × ZoneData) :=
  match doc.records with
  | none => state
  | some recs =>
    if !doc.hasOwner then state
    else
      match parseBase doc.base with
      | none => state
      | some sp =>
        match get_zone_id sp.2 entries with
        | none => state
        | some zid =>
          let full := sp.1 ++ "." ++ sp.2
          insertZone state zid sp.2 full (recs.map (compileRecord full))

def compileDesiredState (docs : List RequestDoc) (entries : List DomainEntry) :
    List (String × ZoneData) :=
  docs.foldl (compileStep entries) []

/-- The whole run: the per-zone sync is executed once for every entry of
`desired_state`, each event tagged with its zone id.  A zone absent from
the compiled state is never touched. -/
def fullRunEvents (o : Nat → Bool) (docs : List RequestDoc)
    (entries : List DomainEntry) (files : List String)
    (liveOf : String → List LiveRecord) : List (String × Ev) :=
  ((compileDesiredState docs entries).map (fun p =>
    (zoneRunEvents o p.2.byName files p.2.domainName (liveOf p.1)).map
      (fun e => (p.1, e)))).flatten

def c5entries : List DomainEntry := [⟨"example.com", false, some "Z1"⟩]
def c5doc : RequestDoc :=
  ⟨"blog.example.com", true, some [⟨"A", "1.2.3.4", none, none, none⟩]⟩
def c5live : LiveRecord := ⟨1, "A", "old.example.com", "9.9.9.9", 1, none, none⟩

/-- C5 counterexample: with the single parent domain disabled, the only
request document is skipped and the compiled desired state is empty, so
the run issues no provider call at all — in particular zero deletes —
although the zone still holds a live record.  The claim's "all of that
zone's existing live managed records become deletion candidates in the
same run" is false: the zone is simply never visited. -/
theorem C5_counterexample :
    compileDesiredState [c5doc] c5entries = []
    ∧ fullRunEvents (fun _ => true) [c5doc] c5entries ["blog.example.com"]
        (fun _ => [c5live]) = []
    ∧ [c5live] ≠ [] := by
  refine ⟨rfl, rfl, by decide⟩

/-! Helper facts for the amended C5: a skipped document changes nothing,
and a zone id that no document resolves to never enters the compiled
state, hence receives no provider call in the run — even while other,
enabled zones of the same run are processed normally. -/

theorem insertZone_keys {state : List (String × ZoneData)}
    {zid parentName full : String} {recs : List DesiredRecord} {Z : String}
    (hz : zid ≠ Z) (hstate : state.all (fun p => !(p.1 == Z)) = true) :
    (insertZone state zid parentName full recs).all (fun p => !(p.1 == Z)) = true := by
  unfold insertZone
  by_cases hc : (state.any (fun p => p.1 == zid)) = true
  · rw [if_pos hc]
    apply List.all_eq_true.mpr
    intro y hy
    obtain ⟨p, hp, hfp⟩ := List.mem_map.mp hy
    have hkey : y.1 = p.1 := by
      by_cases hpz : (p.1 == zid) = true
      · rw [if_pos hpz] at hfp
        rw [← hfp]
      · rw [if_neg hpz] at hfp
        rw [← hfp]
    rw [hkey]
    exact List.all_eq_true.mp hstate p hp
  · rw [if_neg hc, List.all_append]
    rw [List.all_eq_true.mpr (fun x hx => List.all_eq_true.mp hstate x hx)]
    simp [hz]

/-- A document whose parent domain resolves to no zone (disabled,
absent, or placeholder zone id) leaves any compiled state unchanged: it
contributes no records. -/
theorem compileStep_skip {entries : List DomainEntry}
    {state : List (String × ZoneData)} {doc : RequestDoc}
    (hdoc : ∀ sub parentName, parseBase doc.base = some (sub, parentName) →
      get_zone_id parentName entries = none) :
    compileStep entries state doc = state := by
  unfold compileStep
  cases hr : doc.records with
  | none => rfl
  | some recs =>
    dsimp only
    by_cases ho : (!doc.hasOwner) = true
    · rw [if_pos ho]
    · rw [if_neg ho]
      cases hp : parseBase doc.base with
      | none => rfl
      | some sp =>
        dsimp only
        rw [hdoc sp.1 sp.2 (by rw [hp])]

theorem compileStep_keys {entries : List DomainEntry}
    {state : List (String × ZoneData)} {doc : RequestDoc} {Z : String}
    (hdoc : ∀ sub parentName, parseBase doc.base = some (sub, parentName) →
      get_zone_id parentName entries ≠ some Z)
    (hstate : state.all (fun p => !(p.1 == Z)) = true) :
    (compileStep entries state doc).all (fun p => !(p.1 == Z)) = true := by
  unfold compileStep
  cases hr : doc.records with
  | none => exact hstate
  | some recs =>
    dsimp only
    by_cases ho : (!doc.hasOwner) = true
    · rw [if_pos ho]
      exact hstate
    · rw [if_neg ho]
      cases hp : parseBase doc.base with
      | none => exact hstate
      | some sp =>
        dsimp only
        cases hz : get_zone_id sp.2 entries with
        | none => exact hstate
        | some zid =>
          dsimp only
          apply insertZone_keys ?_ hstate
          intro heq
          exact hdoc sp.1 sp.2 (by rw [hp]) (by rw [hz, heq])

theorem compileFold_keys (entries : List DomainEntry) (Z : String) :
    ∀ (docs : List RequestDoc) (state : List (String × ZoneData)),
      (∀ doc ∈ docs, ∀ sub parentName,
        parseBase doc.base = some (sub, parentName) →
        get_zone_id parentName entries ≠ some Z) →
      state.all (fun p => !(p.1 == Z)) = true →
      (docs.foldl (compileStep entries) state).all (fun p => !(p.1 == Z)) = true := by
  intro docs
  induction docs with
  | nil => intro state _ hstate; exact hstate
  | cons doc rest ih =>
    intro state hall hstate
    rw [List.foldl_cons]
    exact ih (compileStep entries state doc)
      (fun x hx => hall x (List.mem_cons_of_mem _ hx))
      (compileStep_keys (hall doc (List.mem_cons_self _ _)) hstate)

theorem fullRunEvents_zone_mem {o : Nat → Bool} {docs : List RequestDoc}
    {entries : List DomainEntry} {files : List String}
    {liveOf : String → List LiveRecord} {Z : String} {e : Ev}
    (h : (Z, e) ∈ fullRunEvents o docs entries files liveOf) :
    ∃ p ∈ compileDesiredState docs entries, p.1 = Z := by
  unfold fullRunEvents at h
  obtain ⟨inner, hinner, hmem⟩ := List.mem_flatten.mp h
  obtain ⟨p, hp, hfp⟩ := List.mem_map.mp hinner
  rw [← hfp] at hmem
  obtain ⟨ev, -, hev⟩ := List.mem_map.mp hmem
  refine ⟨p, hp, ?_⟩
  have := congrArg Prod.fst hev
  exact this

/-- C5 amended: a document whose parent domain's first matching config
entry is disabled (or absent, or has a placeholder zone id) gets `None`
from `get_zone_id` and is skipped, contributing no records to any
compiled state; and in any run — including mixed runs where other
enabled zones are processed — a zone id that no document of the run
resolves to has no entry in the compiled desired state and receives no
provider call at all: its live records are left untouched, no orphan
cleanup happens for it. -/
theorem C5_amended_theorem :
    (∀ (domain : String) (entries : List DomainEntry) (e : DomainEntry),
      entries.find? (fun x => x.name == domain) = some e → e.enabled = false →
      get_zone_id domain entries = none)
    ∧ (∀ (entries : List DomainEntry) (state : List (String × ZoneData))
        (doc : RequestDoc),
        (∀ sub parentName, parseBase doc.base = some (sub, parentName) →
          get_zone_id parentName entries = none) →
        compileStep entries state doc = state)
    ∧ ∀ (docs : List RequestDoc) (entries : List DomainEntry) (Z : String),
        (∀ doc ∈ docs, ∀ sub parentName,
          parseBase doc.base = some (sub, parentName) →
          get_zone_id parentName entries ≠ some Z) →
        ((compileDesiredState docs entries).all (fun p => !(p.1 == Z)) = true)
        ∧ ∀ (o : Nat → Bool) (files : List String)
            (liveOf : String → List LiveRecord) (e : Ev),
            (Z, e) ∉ fullRunEvents o docs entries files liveOf := by
  refine ⟨?_, ?_, ?_⟩
  · intro domain entries e hfind hdis
    unfold get_zone_id
    rw [hfind]
    dsimp only
    rw [hdis]
    rfl
  · intro entries state doc hdoc
    exact compileStep_skip hdoc
  · intro docs entries Z hall
    have hkeys : (compileDesiredState docs entries).all (fun p => !(p.1 == Z)) = true :=
      compileFold_keys entries Z docs [] hall rfl
    refine ⟨hkeys, ?_⟩
    intro o files liveOf e hmem
    obtain ⟨p, hp, hpZ⟩ := fullRunEvents_zone_mem hmem
    have := List.all_eq_true.mp hkeys p hp
    rw [hpZ] at this
    simp at this

def c5entries2 : List DomainEntry :=
  [⟨"example.com", false, some "Z1"⟩, ⟨"other.com", true, some "Z2"⟩]
def c5doc2 : RequestDoc :=
  ⟨"www.other.com", true, some [⟨"A", "2.2.2.2", none, none, none⟩]⟩

/-- Witness for `C5_amended_theorem` at a mixed run: the enabled domain
`other.com` is compiled (its zone `Z2` is the one state entry and is
processed), while the disabled domain's zone `Z1` gets no entry and no
event. -/
theorem C5_amended_witness :
    (compileDesiredState [c5doc, c5doc2] c5entries2).map Prod.fst = ["Z2"]
    ∧ ((compileDesiredState [c5doc, c5doc2] c5entries2).all
          (fun p => !(p.1 == "Z1")) = true
      ∧ ∀ (o : Nat → Bool) (files : List String)
          (liveOf : String → List LiveRecord) (e : Ev),
          ("Z1", e) ∉ fullRunEvents o [c5doc, c5doc2] c5entries2 files liveOf) :=
  ⟨by decide,
   C5_amended_theorem.2.2 [c5doc, c5doc2] c5entries2 "Z1" (by
    intro doc hdoc sub parentName hparse
    rcases List.mem_cons.mp hdoc with rfl | h
    · have hpb : parseBase c5doc.base = some ("blog", "example.com") := rfl
      rw [hpb] at hparse
      injection hparse with h1
      injection h1 with h2 h3
      rw [← h3]
      intro hcontra
      cases hcontra
    · rcases List.mem_cons.mp h with rfl | h
      · have hpb : parseBase c5doc2.base = some ("www", "other.com") := rfl
        rw [hpb] at hparse
        injection hparse with h1
        injection h1 with h2 h3
        rw [← h3]
        intro hcontra
        have : get_zone_id "other.com" c5entries2 = some "Z2" := rfl
        rw [this] at hcontra
        injection hcontra with h4
        exact absurd h4 (by decide)
      · cases h)⟩

/-! ## Claim C6: `CloudflareManager.sync_domain_records`
(scripts/cloudflare/cloudflare_manager.py, lines 446-488)

After building `existing_map` (keyed `"{type}:{name}"`, later duplicates
overwriting) the loop walks `records` in order: each record's key is put
into `new_map` first, then the update (key present in `existing_map`) or
create is attempted inside its own try/except — an exception appends one
entry to `errors` and the loop continues.  Afterwards every
`existing_map` entry whose key is not in `new_map` is deleted, again each
inside its own try/except.  The oracle decides each provider call in
order; error entries are modelled by the offending key. -/

structure CMRecord where
  rtype : String
  rname : String
  content : String
  ttl : Option Nat
  proxied : Option Bool
  priority : Option Nat
deriving Repr, DecidableEq

def cmFullName (domain subdomain : String) : String :=
  if subdomain == "@" then domain else subdomain ++ "." ++ domain

def cmRecordName (domain subdomain : String) (rname : String) : String :=
  if rname == "@" then cmFullName domain subdomain
  else if subdomain != "@" then rname ++ "." ++ cmFullName domain subdomain
  else rname ++ "." ++ domain

def cmKey (rtype rn : String) : String := rtype ++ ":" ++ rn

def mapInsert (m : List (String × LiveRecord)) (k : String) (v : LiveRecord) :
    List (String × LiveRecord) :=
  if m.any (fun p => p.1 == k) then
    m.map (fun p => if p.1 == k then (k, v) else p)
  else m ++ [(k, v)]

def buildExistingMap (recs : List LiveRecord) : List (String × LiveRecord) :=
  recs.foldl (fun m r => mapInsert m (cmKey r.rtype r.name) r) []

inductive SOp where
  | createOp (key : String) (ok : Bool)
  | updateOp (key : String) (id : Nat) (ok : Bool)
  | deleteOp (key : String) (id : Nat) (ok : Bool)
deriving Repr, DecidableEq

def sdrLoop (o : Nat → Bool) (domain subdomain : String)
    (em : List (String × LiveRecord)) :
    List CMRecord → List String → Nat →
      List SOp × List String × List String × Nat
  | [], newKeys, k => ([], [], newKeys, k)
  | r :: rest, newKeys, k =>
    let key := cmKey r.rtype (cmRecordName domain subdomain r.rname)
    let ok := o k
    let t := sdrLoop o domain subdomain em rest (newKeys ++ [key]) (k + 1)
    match em.find? (fun p => p.1 == key) with
    | some pr =>
      (SOp.updateOp key pr.2.id ok :: t.1,
       (if ok then t.2.1 else key :: t.2.1), t.2.2)
    | none =>
      (SOp.createOp key ok :: t.1,
       (if ok then t.2.1 else key :: t.2.1), t.2.2)

def sdrDeletes (o : Nat → Bool) (newKeys : List String) :
    List (String × LiveRecord) → Nat → List SOp × List String × Nat
  | [], k => ([], [], k)
  | p :: rest, k =>
    if newKeys.contains p.1 then sdrDeletes o newKeys rest k
    else
      let ok := o k
      let t := sdrDeletes o newKeys rest (k + 1)
      (SOp.deleteOp p.1 p.2.id ok :: t.1,
       (if ok then t.2.1 else p.1 :: t.2.1), t.2.2)

structure SDRResult where
  attempts : List SOp
  errors : List String
deriving Repr, DecidableEq

def sync_domain_records (o : Nat → Bool) (domain subdomain : String)
    (existingRecords : List LiveRecord) (records : List CMRecord) : SDRResult :=
  let em := buildExistingMap existingRecords
  let r := sdrLoop o domain subdomain em records [] 0
  let s := sdrDeletes o r.2.2.1 em r.2.2.2
  ⟨r.1 ++ s.1, r.2.1 ++ s.2.1⟩

def stripOk : SOp → SOp
  | SOp.createOp k _ => SOp.createOp k true
  | SOp.updateOp k i _ => SOp.updateOp k i true
  | SOp.deleteOp k i _ => SOp.deleteOp k i true

def opFailKey : SOp → Option String
  | SOp.createOp k ok => if ok then none else some k
  | SOp.updateOp k _ ok => if ok then none else some k
  | SOp.deleteOp k _ ok => if ok then none else some k

def failedKeys (ops : List SOp) : List String := ops.filterMap opFailKey

theorem sdrLoop_spec (o : Nat → Bool) (domain subdomain : String)
    (em : List (String × LiveRecord)) :
    ∀ (records : List CMRecord) (newKeys : List String) (k : Nat),
      ((sdrLoop o domain subdomain em records newKeys k).1.map stripOk
        = (sdrLoop (fun _ => true) domain subdomain em records newKeys k).1.map
            stripOk)
      ∧ ((sdrLoop o domain subdomain em records newKeys k).2.1
        = failedKeys (sdrLoop o domain subdomain em records newKeys k).1)
      ∧ ((sdrLoop o domain subdomain em records newKeys k).2.2
        = (sdrLoop (fun _ => true) domain subdomain em records newKeys k).2.2) := by
  intro records
  induction records with
  | nil => intro newKeys k; exact ⟨rfl, rfl, rfl⟩
  | cons r rest ih =>
    intro newKeys k
    obtain ⟨ih1, ih2, ih3⟩ :=
      ih (newKeys ++ [cmKey r.rtype (cmRecordName domain subdomain r.rname)]) (k + 1)
    simp only [sdrLoop]
    cases hfind : em.find?
        (fun p => p.1 == cmKey r.rtype (cmRecordName domain subdomain r.rname)) with
    | none =>
      dsimp only
      cases hok : o k with
      | true => simp [hok, stripOk, failedKeys, opFailKey, ih1, ih2, ih3]
      | false => simp [hok, stripOk, failedKeys, opFailKey, ih1, ih2, ih3]
    | some pr =>
      dsimp only
      cases hok : o k with
      | true => simp [hok, stripOk, failedKeys, opFailKey, ih1, ih2, ih3]
      | false => simp [hok, stripOk, failedKeys, opFailKey, ih1, ih2, ih3]

theorem sdrDeletes_spec (o : Nat → Bool) (newKeys : List String) :
    ∀ (l : List (String × LiveRecord)) (k : Nat),
      ((sdrDeletes o newKeys l k).1.map stripOk
        = (sdrDeletes (fun _ => true) newKeys l k).1.map stripOk)
      ∧ ((sdrDeletes o newKeys l k).2.1
        = failedKeys (sdrDeletes o newKeys l k).1) := by
  intro l
  induction l with
  | nil => intro k; exact ⟨rfl, rfl⟩
  | cons p rest ih =>
    intro k
    simp only [sdrDeletes]
    by_cases hc : (newKeys.contains p.1) = true
    · rw [if_pos hc, if_pos hc]
      exact ih k
    · rw [if_neg hc, if_neg hc]
      obtain ⟨ih1, ih2⟩ := ih (k + 1)
      dsimp only
      cases hok : o k with
      | true => simp [hok, stripOk, failedKeys, opFailKey, ih1, ih2]
      | false => simp [hok, stripOk, failedKeys, opFailKey, ih1, ih2]

/-- C6: the executor attempts every operation of the plan regardless of
failures — the attempted operations (outcome stripped) are the same as
under an always-succeeding provider — and `errors` holds exactly one
entry per failed operation, in order.  In particular, for a plan of 3
creates whose 2nd fails, the 3rd is still attempted and `errors` has
exactly the one entry for the 2nd. -/
theorem C6_theorem :
    (∀ (o : Nat → Bool) (domain subdomain : String)
        (existingRecords : List LiveRecord) (records : List CMRecord),
      ((sync_domain_records o domain subdomain existingRecords
          records).attempts.map stripOk
        = (sync_domain_records (fun _ => true) domain subdomain existingRecords
            records).attempts.map stripOk)
      ∧ (sync_domain_records o domain subdomain existingRecords records).errors
        = failedKeys (sync_domain_records o domain subdomain existingRecords
            records).attempts)
    ∧ sync_domain_records (fun k => !(k == 1)) "example.com" "sub" []
        [⟨"A", "@", "1.1.1.1", none, none, none⟩,
         ⟨"TXT", "a", "x", none, none, none⟩,
         ⟨"TXT", "b", "y", none, none, none⟩]
      = ⟨[SOp.createOp "A:sub.example.com" true,
          SOp.createOp "TXT:a.sub.example.com" false,
          SOp.createOp "TXT:b.sub.example.com" true],
         ["TXT:a.sub.example.com"]⟩ := by
  constructor
  · intro o domain subdomain existingRecords records
    obtain ⟨h1, h2, h3⟩ :=
      sdrLoop_spec o domain subdomain (buildExistingMap existingRecords)
        records [] 0
    have h3a : (sdrLoop o domain subdomain (buildExistingMap existingRecords)
        records [] 0).2.2.1
        = (sdrLoop (fun _ => true) domain subdomain
            (buildExistingMap existingRecords) records [] 0).2.2.1 := by
      rw [h3]
    have h3b : (sdrLoop o domain subdomain (buildExistingMap existingRecords)
        records [] 0).2.2.2
        = (sdrLoop (fun _ => true) domain subdomain
            (buildExistingMap existingRecords) records [] 0).2.2.2 := by
      rw [h3]
    obtain ⟨d1, d2⟩ := sdrDeletes_spec o
      ((sdrLoop o domain subdomain (buildExistingMap existingRecords)
        records [] 0).2.2.1)
      (buildExistingMap existingRecords)
      ((sdrLoop o domain subdomain (buildExistingMap existingRecords)
        records [] 0).2.2.2)
    constructor
    · show ((sdrLoop o domain subdomain (buildExistingMap existingRecords)
          records [] 0).1
        ++ (sdrDeletes o _ (buildExistingMap existingRecords) _).1).map stripOk
        = _
      rw [List.map_append, h1, d1, h3a, h3b]
      show _ = ((sdrLoop (fun _ => true) domain subdomain
          (buildExistingMap existingRecords) records [] 0).1
        ++ (sdrDeletes (fun _ => true) _ (buildExistingMap existingRecords) _).1).map
          stripOk
      rw [List.map_append]
    · show (sdrLoop o domain subdomain (buildExistingMap existingRecords)
          records [] 0).2.1
        ++ (sdrDeletes o _ (buildExistingMap existingRecords) _).2.1
        = failedKeys ((sdrLoop o domain subdomain
            (buildExistingMap existingRecords) records [] 0).1
          ++ (sdrDeletes o _ (buildExistingMap existingRecords) _).1)
      rw [h2, d2]
      unfold failedKeys
      rw [List.filterMap_append]
  · rfl
